import Mathlib

/-!
# ConfigMapManager operator: reconciliation core

A shallow embedding of `internal/controller/configmapmanager_controller.go`
(`Reconcile` and `restartDeployments`) together with the API types of
`api/v1/configmapmanager_types.go`.

The controller talks to a Kubernetes object store through the
controller-runtime client. The store is modelled as explicit state
(`Store`), every client call is appended to a trace together with its
outcome, and an environment (`Env`) decides which calls fail for reasons
outside the store's own semantics and what `time.Now()` returns.
-/

namespace CMOperator

/-! ## Go maps of type `map[string]string` -/

/-- Entries of a Go `map[string]string`, as an association list. Only the
first entry of a key is ever read or written. -/
abbrev GoMap := List (String × String)

/-- Go `v, exists := m[k]`: `none` when the key is absent. -/
def GoMap.get : GoMap → String → Option String
  | [], _ => none
  | (k', v') :: rest, k => if k' = k then some v' else GoMap.get rest k

/-- Go `m[k] = v`: overwrite the entry of `k`, or add one. -/
def GoMap.set : GoMap → String → String → GoMap
  | [], k, v => [(k, v)]
  | (k', v') :: rest, k, v =>
    if k' = k then (k, v) :: rest else (k', v') :: GoMap.set rest k v

/-! ## API types (`api/v1/configmapmanager_types.go`) -/

/-- ConfigMapUpdate defines the update details for a ConfigMap key-value pair. -/
structure ConfigMapUpdate where
  Key : String
  NewValue : String
  deriving DecidableEq, Repr

/-- ConfigMapSpec defines the desired state of the ConfigMap. -/
structure ConfigMapSpec where
  Name : String
  Updates : List ConfigMapUpdate
  deriving DecidableEq, Repr

/-- ConfigMapManagerSpec defines the desired state of ConfigMapManager. -/
structure ConfigMapManagerSpec where
  ConfigMaps : List ConfigMapSpec
  deriving DecidableEq, Repr

/-- ConfigMapManager object: metadata (name, namespace) and its spec. -/
structure ConfigMapManager where
  Name : String
  Namespace : String
  Spec : ConfigMapManagerSpec
  deriving DecidableEq, Repr

/-! ## Kubernetes objects read and written by the controller -/

/-- The fields of `corev1.ConfigMap` the controller touches. `Data = none`
is Go's nil map. -/
structure ConfigMap where
  Name : String
  Namespace : String
  Data : Option GoMap
  deriving DecidableEq, Repr

/-- Source `corev1.ConfigMapVolumeSource`: the referenced ConfigMap name. -/
structure ConfigMapVolumeSource where
  Name : String
  deriving DecidableEq, Repr

/-- Source `corev1.Volume`; `ConfigMap = none` is the nil pointer. -/
structure Volume where
  Name : String
  ConfigMap : Option ConfigMapVolumeSource
  deriving DecidableEq, Repr

/-- Source `corev1.ConfigMapEnvSource`: the referenced ConfigMap name. -/
structure ConfigMapEnvSource where
  Name : String
  deriving DecidableEq, Repr

/-- Source `corev1.EnvFromSource`; `ConfigMapRef = none` is the nil pointer. -/
structure EnvFromSource where
  ConfigMapRef : Option ConfigMapEnvSource
  deriving DecidableEq, Repr

/-- Source `corev1.Container`, with its `EnvFrom` list. -/
structure Container where
  Name : String
  EnvFrom : List EnvFromSource
  deriving DecidableEq, Repr

/-- The fields of `appsv1.Deployment` the controller touches: `Annotations`
is `Spec.Template.Annotations` (`none` is the nil map), `Volumes` and
`Containers` are those of `Spec.Template.Spec`. -/
structure Deployment where
  Name : String
  Namespace : String
  Annotations : Option GoMap
  Volumes : List Volume
  Containers : List Container
  deriving DecidableEq, Repr

/-! ## The object store and the client calls -/

/-- Errors a client call can return. `notFound` and `alreadyExists` come
from the store's own semantics, `fault` is any other failure (transport,
conflict, admission, ...), identified by a code. -/
inductive StoreError where
  | notFound
  | alreadyExists
  | fault (code : Nat)
  deriving DecidableEq, Repr

/-- Client calls issued by the controller. -/
inductive Call where
  | getManager (ns name : String)
  | getConfigMap (ns name : String)
  | createConfigMap (cm : ConfigMap)
  | updateConfigMap (cm : ConfigMap)
  | listDeployments (ns : String)
  | updateDeployment (d : Deployment)
  deriving DecidableEq, Repr

/-- Contents of the object store. -/
structure Store where
  managers : List ConfigMapManager
  configMaps : List ConfigMap
  deployments : List Deployment
  deriving DecidableEq, Repr

/-- The store and the trace of the client calls issued so far, each with
its outcome (`none` is success). -/
structure World where
  store : Store
  trace : List (Call × Option StoreError)
  deriving DecidableEq, Repr

/-- What the controller cannot control: `fault i` is the failure, if any,
injected into the call issued when `i` calls have been made; `now i` is
`time.Now().Format(time.RFC3339)` read at that moment. -/
structure Env where
  fault : Nat → Option Nat
  now : Nat → String

/-- Store lookup of a ConfigMapManager by namespaced name. -/
def Store.findManager (s : Store) (ns name : String) : Option ConfigMapManager :=
  s.managers.find? (fun m => decide (m.Namespace = ns ∧ m.Name = name))

/-- Store lookup of a ConfigMap by namespaced name. -/
def Store.findConfigMap (s : Store) (ns name : String) : Option ConfigMap :=
  s.configMaps.find? (fun c => decide (c.Namespace = ns ∧ c.Name = name))

/-- Store lookup of a Deployment by namespaced name. -/
def Store.findDeployment (s : Store) (ns name : String) : Option Deployment :=
  s.deployments.find? (fun d => decide (d.Namespace = ns ∧ d.Name = name))

/-- Semantics of `Get` on a ConfigMapManager. -/
def Store.getManager (s : Store) (ns name : String) :
    Except StoreError (ConfigMapManager × Store) :=
  match s.findManager ns name with
  | some m => .ok (m, s)
  | none => .error .notFound

/-- Semantics of `Get` on a ConfigMap. -/
def Store.getConfigMap (s : Store) (ns name : String) :
    Except StoreError (ConfigMap × Store) :=
  match s.findConfigMap ns name with
  | some c => .ok (c, s)
  | none => .error .notFound

/-- Semantics of `Create` on a ConfigMap. -/
def Store.createConfigMap (s : Store) (cm : ConfigMap) : Except StoreError (Unit × Store) :=
  match s.findConfigMap cm.Namespace cm.Name with
  | some _ => .error .alreadyExists
  | none => .ok ((), { s with configMaps := s.configMaps ++ [cm] })

/-- Semantics of `Update` on a ConfigMap: the stored object of that
namespaced name is replaced. -/
def Store.updateConfigMap (s : Store) (cm : ConfigMap) : Except StoreError (Unit × Store) :=
  match s.findConfigMap cm.Namespace cm.Name with
  | none => .error .notFound
  | some _ =>
    .ok ((), { s with configMaps := s.configMaps.map (fun c =>
      if c.Namespace = cm.Namespace ∧ c.Name = cm.Name then cm else c) })

/-- Semantics of `List` on Deployments with `client.InNamespace`. -/
def Store.listDeployments (s : Store) (ns : String) :
    Except StoreError (List Deployment × Store) :=
  .ok (s.deployments.filter (fun d => decide (d.Namespace = ns)), s)

/-- Semantics of `Update` on a Deployment. -/
def Store.updateDeployment (s : Store) (d : Deployment) : Except StoreError (Unit × Store) :=
  match s.findDeployment d.Namespace d.Name with
  | none => .error .notFound
  | some _ =>
    .ok ((), { s with deployments := s.deployments.map (fun x =>
      if x.Namespace = d.Namespace ∧ x.Name = d.Name then d else x) })

/-- One client call: it fails with the injected fault if there is one (the
store is then left as it is), otherwise it has the store's semantics. The
call and its outcome are appended to the trace. -/
def call {α : Type} (env : Env) (c : Call) (sem : Store → Except StoreError (α × Store))
    (w : World) : Except StoreError α × World :=
  match env.fault w.trace.length with
  | some code =>
    (.error (.fault code), { w with trace := w.trace ++ [(c, some (.fault code))] })
  | none =>
    match sem w.store with
    | .error err => (.error err, { w with trace := w.trace ++ [(c, some err)] })
    | .ok (a, s) => (.ok a, { store := s, trace := w.trace ++ [(c, none)] })

/-- Client call `r.Get(ctx, req.NamespacedName, &cmManager)`. -/
def getManager (env : Env) (ns name : String) (w : World) :=
  call env (.getManager ns name) (fun s => s.getManager ns name) w

/-- Client call `r.Get(ctx, cmName, &configMap)`. -/
def getConfigMap (env : Env) (ns name : String) (w : World) :=
  call env (.getConfigMap ns name) (fun s => s.getConfigMap ns name) w

/-- Client call `r.Create(ctx, &configMap)`. -/
def createConfigMap (env : Env) (cm : ConfigMap) (w : World) :=
  call env (.createConfigMap cm) (fun s => s.createConfigMap cm) w

/-- Client call `r.Update(ctx, &configMap)`. -/
def updateConfigMap (env : Env) (cm : ConfigMap) (w : World) :=
  call env (.updateConfigMap cm) (fun s => s.updateConfigMap cm) w

/-- Client call `r.List(ctx, &deployments, client.InNamespace(namespace))`. -/
def listDeployments (env : Env) (ns : String) (w : World) :=
  call env (.listDeployments ns) (fun s => s.listDeployments ns) w

/-- Client call `r.Update(ctx, &deployment)`. -/
def updateDeployment (env : Env) (d : Deployment) (w : World) :=
  call env (.updateDeployment d) (fun s => s.updateDeployment d) w

/-! ## `restartDeployments` -/

/-- The annotation key written on the pod template. -/
def restartedAtKey : String := "configmapmanager/restartedAt"

/-- The two scans of `restartDeployments` that compute `usesConfigMap`:
first the volumes, then, when no volume matched, the `EnvFrom` entries of
each container. -/
def usesConfigMap (deployment : Deployment) (configMapName : String) : Bool :=
  let usesVolume := deployment.Volumes.any (fun volume =>
    match volume.ConfigMap with
    | some src => decide (src.Name = configMapName)
    | none => false)
  if usesVolume then true
  else deployment.Containers.any (fun container =>
    container.EnvFrom.any (fun envFrom =>
      match envFrom.ConfigMapRef with
      | some ref => decide (ref.Name = configMapName)
      | none => false))

/-- The deployment with `Spec.Template.Annotations[restartedAtKey] = stamp`,
the annotation map being made first when it is nil. -/
def setRestartedAt (deployment : Deployment) (stamp : String) : Deployment :=
  { deployment with
    Annotations := some (GoMap.set (deployment.Annotations.getD []) restartedAtKey stamp) }

/-- The loop of `restartDeployments` over `deployments.Items`. -/
def restartLoop (env : Env) (configMapName : String) :
    List Deployment → World → Option StoreError × World
  | [], w => (none, w)
  | deployment :: items, w =>
    if usesConfigMap deployment configMapName then
      match updateDeployment env (setRestartedAt deployment (env.now w.trace.length)) w with
      | (.error err, w1) => (some err, w1)
      | (.ok _, w1) => restartLoop env configMapName items w1
    else restartLoop env configMapName items w

/-- Source `ConfigMapManagerReconciler.restartDeployments`; the result is
the returned `error` (`none` is nil) and the world it leaves. -/
def restartDeployments (env : Env) (ns configMapName : String) (w : World) :
    Option StoreError × World :=
  match listDeployments env ns w with
  | (.error err, w1) => (some err, w1)
  | (.ok deployments, w1) => restartLoop env configMapName deployments w1

/-! ## `Reconcile` -/

/-- The loop of the not-found branch: `configMap.Data[update.Key] = update.NewValue`
for each update in order. -/
def applyUpdates (data : GoMap) (updates : List ConfigMapUpdate) : GoMap :=
  updates.foldl (fun d update => GoMap.set d update.Key update.NewValue) data

/-- One iteration of the loop of the found branch on the data and the
`updated` flag: the update is assigned when its key is absent or has another
value, and `updated` is then set. -/
def mergeStep (acc : GoMap × Bool) (update : ConfigMapUpdate) : GoMap × Bool :=
  match GoMap.get acc.1 update.Key with
  | none => (GoMap.set acc.1 update.Key update.NewValue, true)
  | some currentValue =>
    if currentValue ≠ update.NewValue then
      (GoMap.set acc.1 update.Key update.NewValue, true)
    else acc

/-- The loop of the found branch, started with `updated := false`. The
result is the data and `updated`. -/
def mergeUpdates (data : GoMap) (updates : List ConfigMapUpdate) : GoMap × Bool :=
  updates.foldl mergeStep (data, false)

/-- The body of the loop of `Reconcile` for one entry of `Spec.ConfigMaps`. -/
def reconcileConfigMap (env : Env) (ns : String) (cmSpec : ConfigMapSpec) (w : World) :
    Option StoreError × World :=
  match getConfigMap env ns cmSpec.Name w with
  | (.error err, w1) =>
    if err = .notFound then
      let configMap : ConfigMap :=
        { Name := cmSpec.Name, Namespace := ns, Data := some (applyUpdates [] cmSpec.Updates) }
      match createConfigMap env configMap w1 with
      | (.error err, w2) => (some err, w2)
      | (.ok _, w2) => restartDeployments env ns cmSpec.Name w2
    else (some err, w1)
  | (.ok configMap, w1) =>
    let merged := mergeUpdates (configMap.Data.getD []) cmSpec.Updates
    if merged.2 then
      match updateConfigMap env { configMap with Data := some merged.1 } w1 with
      | (.error err, w2) => (some err, w2)
      | (.ok _, w2) => restartDeployments env ns cmSpec.Name w2
    else (none, w1)

/-- The loop of `Reconcile` over `cmManager.Spec.ConfigMaps`. -/
def reconcileConfigMaps (env : Env) (ns : String) :
    List ConfigMapSpec → World → Option StoreError × World
  | [], w => (none, w)
  | cmSpec :: rest, w =>
    match reconcileConfigMap env ns cmSpec w with
    | (some err, w1) => (some err, w1)
    | (none, w1) => reconcileConfigMaps env ns rest w1

/-- Source `ctrl.Request`: the namespaced name of the ConfigMapManager. -/
structure Request where
  Namespace : String
  Name : String
  deriving DecidableEq, Repr

/-- Source `ConfigMapManagerReconciler.Reconcile`; the result is the
returned `error` (`none` is nil) and the world it leaves. -/
def Reconcile (env : Env) (req : Request) (w : World) : Option StoreError × World :=
  match getManager env req.Namespace req.Name w with
  | (.error err, w1) => if err = .notFound then (none, w1) else (some err, w1)
  | (.ok cmManager, w1) => reconcileConfigMaps env req.Namespace cmManager.Spec.ConfigMaps w1

/-! ## Test fixtures -/

/-- An environment in which no call fails and the clock reads the same. -/
def quietEnv : Env := { fault := fun _ => none, now := fun _ => "2024-01-01T00:00:00Z" }

/-- An environment in which the third call fails, with code 7. -/
def faultyEnv : Env :=
  { fault := fun i => if i = 2 then some 7 else none, now := fun _ => "2024-01-01T00:00:00Z" }

/-- The request of the tests. -/
def testRequest : Request := { Namespace := "default", Name := "test-configmapmanager" }

/-- A manager object like the one of the tests, with the given targets. -/
def testManager (targets : List ConfigMapSpec) : ConfigMapManager :=
  { Name := "test-configmapmanager", Namespace := "default", Spec := { ConfigMaps := targets } }

/-- A world with the manager of the tests carrying `targets`, the given
ConfigMaps and Deployments, and no call made yet. -/
def testWorld (targets : List ConfigMapSpec) (configMaps : List ConfigMap)
    (deployments : List Deployment) : World :=
  { store := { managers := [testManager targets], configMaps := configMaps,
               deployments := deployments },
    trace := [] }

/-! ## Specification vocabulary -/

/-- The value of the last update of `updates` whose key is `k`, if any. -/
def lastValue (updates : List ConfigMapUpdate) (k : String) : Option String :=
  ((updates.filter (fun u => decide (u.Key = k))).getLast?).map (fun u => u.NewValue)

/-- Go `configMap.Data[k]`, which also reads a nil map. -/
def ConfigMap.value (cm : ConfigMap) (k : String) : Option String :=
  GoMap.get (cm.Data.getD []) k

/-- The ConfigMap `name` of namespace `ns` exists and its data has `v` at `k`. -/
def Holds (s : Store) (ns name k v : String) : Prop :=
  ∃ cm, s.findConfigMap ns name = some cm ∧ cm.value k = some v

/-- The ConfigMap of the target exists and every update of the target holds
in its data. -/
def Converged (s : Store) (ns : String) (T : ConfigMapSpec) : Prop :=
  ∃ cm, s.findConfigMap ns T.Name = some cm ∧
    ∀ u ∈ T.Updates, cm.value u.Key = some u.NewValue

/-- No two updates of the targets, for the same ConfigMap name and the same
key, carry different values. -/
def TargetsConsistent (targets : List ConfigMapSpec) : Prop :=
  ∀ T ∈ targets, ∀ T' ∈ targets, T.Name = T'.Name →
    ∀ u ∈ T.Updates, ∀ u' ∈ T'.Updates, u.Key = u'.Key → u.NewValue = u'.NewValue

/-- The pod template of the deployment has a volume with a ConfigMap source
named `X`, or one of its containers has an `EnvFrom` entry with a
`ConfigMapRef` named `X`. -/
def References (d : Deployment) (X : String) : Prop :=
  (∃ volume ∈ d.Volumes, volume.ConfigMap = some ⟨X⟩) ∨
  (∃ container ∈ d.Containers, ∃ envFrom ∈ container.EnvFrom, envFrom.ConfigMapRef = some ⟨X⟩)

/-- The namespaced name of a deployment. -/
def Deployment.key (d : Deployment) : String × String := (d.Namespace, d.Name)

/-- No key occurs in `updates` with two different values. -/
def Consistent (updates : List ConfigMapUpdate) : Prop :=
  ∀ u ∈ updates, ∀ u' ∈ updates, u.Key = u'.Key → u.NewValue = u'.NewValue

/-! ## Vocabulary of the proofs -/

/-- The ConfigMap the not-found branch creates. -/
def createdConfigMap (ns : String) (cmSpec : ConfigMapSpec) : ConfigMap :=
  { Name := cmSpec.Name, Namespace := ns, Data := some (applyUpdates [] cmSpec.Updates) }

/-- The ConfigMap the found branch writes back. -/
def mergedConfigMap (configMap : ConfigMap) (cmSpec : ConfigMapSpec) : ConfigMap :=
  { configMap with Data := some (applyUpdates (configMap.Data.getD []) cmSpec.Updates) }

/-- The store with one more ConfigMap. -/
def Store.withCreated (s : Store) (cm : ConfigMap) : Store :=
  { s with configMaps := s.configMaps ++ [cm] }

/-- The store with the ConfigMap of that namespaced name replaced. -/
def Store.withUpdated (s : Store) (cm : ConfigMap) : Store :=
  { s with configMaps := s.configMaps.map (fun c =>
      if c.Namespace = cm.Namespace ∧ c.Name = cm.Name then cm else c) }

/-- The calls that read or write Deployments. -/
def Call.onDeployment : Call → Bool
  | .listDeployments _ => true
  | .updateDeployment _ => true
  | _ => false

/-- The calls that read one object by name. -/
def Call.isGet : Call → Bool
  | .getManager _ _ => true
  | .getConfigMap _ _ => true
  | _ => false

/-- The deployments of the store after a Deployment was replaced. -/
def replaceDeployment (ds : List Deployment) (d : Deployment) : List Deployment :=
  ds.map (fun x => if x.Namespace = d.Namespace ∧ x.Name = d.Name then d else x)

/-- The store with the Deployment of that namespaced name replaced. -/
def Store.withDeployment (s : Store) (d : Deployment) : Store :=
  { s with deployments := replaceDeployment s.deployments d }

/-- A trace entry is a failed call when its outcome is an error, a not-found
on a read of one object apart (`Reconcile` handles that one). -/
def failed : Call × Option StoreError → Bool
  | (.getManager _ _, some .notFound) => false
  | (.getConfigMap _ _, some .notFound) => false
  | (_, some _) => true
  | (_, none) => false

/-- The store after a call that succeeded. -/
def Store.commit (s : Store) : Call → Store
  | .createConfigMap cm => s.withCreated cm
  | .updateConfigMap cm => s.withUpdated cm
  | .updateDeployment d => s.withDeployment d
  | _ => s

/-- The store after the calls of a trace: the calls that succeeded are
committed in order, the others leave the store as it is. -/
def Store.replay (s : Store) (entries : List (Call × Option StoreError)) : Store :=
  entries.foldl (fun st e => if e.2 = none then st.commit e.1 else st) s

/-- A run from `w` to `w'` returning `r` fails fast: it extends the trace,
its store is the committed writes of the new entries, a call on which a
fault is injected is the last call and its error is returned, and either no
call failed and nil is returned, or the last call is the only failed call
and its error is returned. -/
def FailFast (env : Env) (w : World) (r : Option StoreError) (w' : World) : Prop :=
  ∃ new, w'.trace = w.trace ++ new ∧ w'.store = w.store.replay new ∧
    (∀ i code, i < new.length → env.fault (w.trace.length + i) = some code →
      i + 1 = new.length ∧ r = some (.fault code)) ∧
    match r with
    | none => ∀ e ∈ new, failed e = false
    | some err => ∃ pre c, new = pre ++ [(c, some err)] ∧ failed (c, some err) = true ∧
        ∀ e ∈ pre, failed e = false

/-! ## Go maps -/

theorem GoMap.get_set_same (m : GoMap) (k v : String) :
    GoMap.get (GoMap.set m k v) k = some v := by
  induction m with
  | nil => simp [GoMap.set, GoMap.get]
  | cons e rest ih =>
    obtain ⟨k', v'⟩ := e
    by_cases h : k' = k
    · simp [GoMap.set, GoMap.get, h]
    · simp [GoMap.set, GoMap.get, h, ih]

theorem GoMap.get_set_other (m : GoMap) (k v k' : String) (h : k' ≠ k) :
    GoMap.get (GoMap.set m k v) k' = GoMap.get m k' := by
  induction m with
  | nil => simp [GoMap.set, GoMap.get, Ne.symm h]
  | cons e rest ih =>
    obtain ⟨k0, v0⟩ := e
    by_cases h0 : k0 = k
    · subst h0
      simp [GoMap.set, GoMap.get, Ne.symm h]
    · simp only [GoMap.set, h0, if_false, GoMap.get, ih]

theorem GoMap.set_of_get (m : GoMap) (k v : String) (h : GoMap.get m k = some v) :
    GoMap.set m k v = m := by
  induction m with
  | nil => simp [GoMap.get] at h
  | cons e rest ih =>
    obtain ⟨k0, v0⟩ := e
    by_cases h0 : k0 = k
    · subst h0
      simp only [GoMap.get, if_true, Option.some.injEq] at h
      simp [GoMap.set, h]
    · simp only [GoMap.get, h0, if_false] at h
      simp [GoMap.set, h0, ih h]

theorem GoMap.get_set (m : GoMap) (k v k' : String) :
    GoMap.get (GoMap.set m k v) k' = if k' = k then some v else GoMap.get m k' := by
  by_cases h : k' = k
  · subst h
    simp [GoMap.get_set_same]
  · simp [h, GoMap.get_set_other m k v k' h]

/-! ## The two update loops -/

theorem applyUpdates_nil (m : GoMap) : applyUpdates m [] = m := rfl

theorem applyUpdates_cons (m : GoMap) (u : ConfigMapUpdate) (us : List ConfigMapUpdate) :
    applyUpdates m (u :: us) = applyUpdates (GoMap.set m u.Key u.NewValue) us := rfl

theorem applyUpdates_append (m : GoMap) (us vs : List ConfigMapUpdate) :
    applyUpdates m (us ++ vs) = applyUpdates (applyUpdates m us) vs := by
  simp [applyUpdates, List.foldl_append]

theorem mergeStep_fst (acc : GoMap × Bool) (u : ConfigMapUpdate) :
    (mergeStep acc u).1 = GoMap.set acc.1 u.Key u.NewValue := by
  unfold mergeStep
  cases h : GoMap.get acc.1 u.Key with
  | none => rfl
  | some cur =>
    by_cases hc : cur = u.NewValue
    · subst hc
      simp [GoMap.set_of_get _ _ _ h]
    · simp [hc]

theorem mergeStep_snd (acc : GoMap × Bool) (u : ConfigMapUpdate) :
    (mergeStep acc u).2 = (acc.2 || decide (GoMap.get acc.1 u.Key ≠ some u.NewValue)) := by
  unfold mergeStep
  cases h : GoMap.get acc.1 u.Key with
  | none => simp
  | some cur =>
    by_cases hc : cur = u.NewValue
    · simp [hc]
    · simp [hc]

theorem foldl_mergeStep_fst (us : List ConfigMapUpdate) (acc : GoMap × Bool) :
    (us.foldl mergeStep acc).1 = applyUpdates acc.1 us := by
  induction us generalizing acc with
  | nil => rfl
  | cons u us ih => simp only [List.foldl_cons, ih, mergeStep_fst, applyUpdates_cons]

/-- The found branch assigns the same data as the not-found branch does. -/
theorem mergeUpdates_fst (m : GoMap) (us : List ConfigMapUpdate) :
    (mergeUpdates m us).1 = applyUpdates m us :=
  foldl_mergeStep_fst us (m, false)

theorem applyUpdates_of_sat (m : GoMap) (us : List ConfigMapUpdate)
    (h : ∀ u ∈ us, GoMap.get m u.Key = some u.NewValue) : applyUpdates m us = m := by
  induction us with
  | nil => rfl
  | cons u us ih =>
    rw [applyUpdates_cons, GoMap.set_of_get _ _ _ (h u (List.mem_cons_self _ _))]
    exact ih (fun x hx => h x (List.mem_cons_of_mem _ hx))

theorem foldl_mergeStep_snd_false (us : List ConfigMapUpdate) (acc : GoMap × Bool) :
    (us.foldl mergeStep acc).2 = false ↔
      acc.2 = false ∧ ∀ u ∈ us, GoMap.get acc.1 u.Key = some u.NewValue := by
  induction us generalizing acc with
  | nil => simp
  | cons u us ih =>
    rw [List.foldl_cons, ih, mergeStep_snd, mergeStep_fst]
    constructor
    · rintro ⟨h1, h2⟩
      simp only [Bool.or_eq_false_iff, decide_eq_false_iff_not, not_not] at h1
      rw [GoMap.set_of_get _ _ _ h1.2] at h2
      refine ⟨h1.1, ?_⟩
      intro x hx
      rcases List.mem_cons.1 hx with rfl | hx
      · exact h1.2
      · exact h2 x hx
    · rintro ⟨h1, h2⟩
      have hu := h2 u (List.mem_cons_self _ _)
      rw [GoMap.set_of_get _ _ _ hu]
      refine ⟨?_, fun x hx => h2 x (List.mem_cons_of_mem _ hx)⟩
      simp [h1, hu]

/-- The flag `updated` stays false exactly when every update already holds
in the observed data. -/
theorem mergeUpdates_snd_false (m : GoMap) (us : List ConfigMapUpdate) :
    (mergeUpdates m us).2 = false ↔ ∀ u ∈ us, GoMap.get m u.Key = some u.NewValue := by
  unfold mergeUpdates
  rw [foldl_mergeStep_snd_false]
  simp

theorem lastValue_append_singleton (us : List ConfigMapUpdate) (u : ConfigMapUpdate)
    (k : String) :
    lastValue (us ++ [u]) k = if u.Key = k then some u.NewValue else lastValue us k := by
  unfold lastValue
  by_cases h : u.Key = k
  · simp [List.filter_append, h, List.getLast?_append]
  · simp [List.filter_append, h]

/-- Reading the data after the updates were assigned in order. -/
theorem get_applyUpdates (m : GoMap) (us : List ConfigMapUpdate) (k : String) :
    GoMap.get (applyUpdates m us) k = (lastValue us k).orElse (fun _ => GoMap.get m k) := by
  induction us using List.reverseRecOn with
  | nil => simp [applyUpdates, lastValue]
  | append_singleton us u ih =>
    rw [applyUpdates_append, applyUpdates_cons, applyUpdates_nil, GoMap.get_set,
      lastValue_append_singleton]
    by_cases h : u.Key = k
    · simp [h]
    · simp [h, Ne.symm h, ih]

theorem lastValue_eq_some (us : List ConfigMapUpdate) (k v : String)
    (h : lastValue us k = some v) : ∃ u ∈ us, u.Key = k ∧ u.NewValue = v := by
  unfold lastValue at h
  rw [Option.map_eq_some'] at h
  obtain ⟨u, hu, rfl⟩ := h
  have hm := List.mem_of_getLast?_eq_some hu
  simp only [List.mem_filter, decide_eq_true_eq] at hm
  exact ⟨u, hm.1, hm.2, rfl⟩

theorem lastValue_eq_none (us : List ConfigMapUpdate) (k : String) :
    lastValue us k = none ↔ ∀ u ∈ us, u.Key ≠ k := by
  unfold lastValue
  simp [List.getLast?_eq_none_iff, List.filter_eq_nil_iff]

theorem lastValue_isSome_of_mem (us : List ConfigMapUpdate) (u : ConfigMapUpdate)
    (h : u ∈ us) : ∃ v, lastValue us u.Key = some v := by
  cases hl : lastValue us u.Key with
  | some v => exact ⟨v, rfl⟩
  | none => exact absurd rfl ((lastValue_eq_none us u.Key).1 hl u h)

/-! ## Client calls -/

theorem call_fault {α : Type} (env : Env) (c : Call)
    (sem : Store → Except StoreError (α × Store)) (w : World) (code : Nat)
    (h : env.fault w.trace.length = some code) :
    call env c sem w
      = (.error (.fault code), ⟨w.store, w.trace ++ [(c, some (.fault code))]⟩) := by
  simp [call, h]

theorem call_error {α : Type} (env : Env) (c : Call)
    (sem : Store → Except StoreError (α × Store)) (w : World) (err : StoreError)
    (h : env.fault w.trace.length = none) (hs : sem w.store = .error err) :
    call env c sem w = (.error err, ⟨w.store, w.trace ++ [(c, some err)]⟩) := by
  simp [call, h, hs]

theorem call_ok {α : Type} (env : Env) (c : Call)
    (sem : Store → Except StoreError (α × Store)) (w : World) (a : α) (s : Store)
    (h : env.fault w.trace.length = none) (hs : sem w.store = .ok (a, s)) :
    call env c sem w = (.ok a, ⟨s, w.trace ++ [(c, none)]⟩) := by
  simp [call, h, hs]

/-- The three ways a client call can go. -/
theorem call_cases {α : Type} (env : Env) (c : Call)
    (sem : Store → Except StoreError (α × Store)) (w : World) :
    (∃ code, env.fault w.trace.length = some code ∧ call env c sem w
        = (.error (.fault code), ⟨w.store, w.trace ++ [(c, some (.fault code))]⟩)) ∨
    (∃ err, env.fault w.trace.length = none ∧ sem w.store = .error err ∧
      call env c sem w = (.error err, ⟨w.store, w.trace ++ [(c, some err)]⟩)) ∨
    (∃ a s, env.fault w.trace.length = none ∧ sem w.store = .ok (a, s) ∧
      call env c sem w = (.ok a, ⟨s, w.trace ++ [(c, none)]⟩)) := by
  cases hf : env.fault w.trace.length with
  | some code => exact Or.inl ⟨code, rfl, call_fault env c sem w code hf⟩
  | none =>
    cases hs : sem w.store with
    | error err => exact Or.inr (Or.inl ⟨err, rfl, rfl, call_error env c sem w err hf hs⟩)
    | ok p => exact Or.inr (Or.inr ⟨p.1, p.2, rfl, rfl, call_ok env c sem w p.1 p.2 hf hs⟩)

/-! ## The store -/

theorem Store.updateDeployment_configMaps (s s' : Store) (d : Deployment) (u : Unit)
    (h : s.updateDeployment d = .ok (u, s')) :
    s'.configMaps = s.configMaps ∧ s'.managers = s.managers := by
  unfold Store.updateDeployment at h
  cases hd : s.findDeployment d.Namespace d.Name with
  | none => simp [hd] at h
  | some x =>
    simp only [hd, Except.ok.injEq, Prod.mk.injEq] at h
    rw [← h.2]
    exact ⟨rfl, rfl⟩

theorem find?_map_replace_other {α : Type} (p q : α → Bool) (b : α) (l : List α)
    (hb : q b = false) (hpq : ∀ x, p x = true → q x = false) :
    (l.map (fun x => if p x = true then b else x)).find? q = l.find? q := by
  induction l with
  | nil => rfl
  | cons x l ih =>
    by_cases hx : p x = true
    · simp [List.find?_cons, hx, hb, hpq x hx, ih]
    · have hx' : p x = false := by simpa using hx
      simp [List.find?_cons, hx', ih]

theorem find?_map_replace_same {α : Type} (p : α → Bool) (b : α) (l : List α)
    (hb : p b = true) (x : α) (hx : l.find? p = some x) :
    (l.map (fun y => if p y = true then b else y)).find? p = some b := by
  induction l with
  | nil => simp at hx
  | cons y l ih =>
    by_cases hy : p y = true
    · simp [List.find?_cons, hy, hb]
    · have hy' : p y = false := by simpa using hy
      simp only [List.find?_cons, hy'] at hx
      simp only [List.map_cons, hy', Bool.false_eq_true, if_false, List.find?_cons]
      exact ih hx

theorem Store.findConfigMap_key (s : Store) (ns name : String) (cm : ConfigMap)
    (h : s.findConfigMap ns name = some cm) : cm.Namespace = ns ∧ cm.Name = name := by
  unfold Store.findConfigMap at h
  simpa using List.find?_some h

theorem Store.createConfigMap_ok (s : Store) (cm : ConfigMap)
    (h : s.findConfigMap cm.Namespace cm.Name = none) :
    s.createConfigMap cm = .ok ((), { s with configMaps := s.configMaps ++ [cm] }) := by
  simp [Store.createConfigMap, h]

theorem Store.updateConfigMap_ok (s : Store) (cm old : ConfigMap)
    (h : s.findConfigMap cm.Namespace cm.Name = some old) :
    s.updateConfigMap cm = .ok ((), { s with configMaps := s.configMaps.map (fun c =>
      if c.Namespace = cm.Namespace ∧ c.Name = cm.Name then cm else c) }) := by
  simp [Store.updateConfigMap, h]

/-- Reading the store after a ConfigMap was added. -/
theorem find_after_create (s : Store) (cm : ConfigMap)
    (h : s.findConfigMap cm.Namespace cm.Name = none) (ns name : String) :
    Store.findConfigMap { s with configMaps := s.configMaps ++ [cm] } ns name
      = if cm.Namespace = ns ∧ cm.Name = name then some cm else s.findConfigMap ns name := by
  unfold Store.findConfigMap at h ⊢
  by_cases hk : cm.Namespace = ns ∧ cm.Name = name
  · obtain ⟨rfl, rfl⟩ := hk
    rw [List.find?_append, h]
    simp
  · rw [if_neg hk, List.find?_append]
    have : [cm].find? (fun c => decide (c.Namespace = ns ∧ c.Name = name)) = none := by
      simp [List.find?_cons, hk]
    rw [this]
    simp

/-- Reading the store after a ConfigMap was replaced. -/
theorem find_after_update (s : Store) (cm old : ConfigMap)
    (h : s.findConfigMap cm.Namespace cm.Name = some old) (ns name : String) :
    Store.findConfigMap { s with configMaps := s.configMaps.map (fun c =>
        if c.Namespace = cm.Namespace ∧ c.Name = cm.Name then cm else c) } ns name
      = if cm.Namespace = ns ∧ cm.Name = name then some cm else s.findConfigMap ns name := by
  unfold Store.findConfigMap at h ⊢
  have hfun : (fun c : ConfigMap => if c.Namespace = cm.Namespace ∧ c.Name = cm.Name then cm else c)
      = (fun c : ConfigMap =>
          if (fun x : ConfigMap => decide (x.Namespace = cm.Namespace ∧ x.Name = cm.Name)) c = true
          then cm else c) := by
    funext c
    simp
  by_cases hk : cm.Namespace = ns ∧ cm.Name = name
  · obtain ⟨rfl, rfl⟩ := hk
    simp only [and_self, if_true]
    rw [hfun]
    exact find?_map_replace_same _ cm _ (by simp) old h
  · rw [if_neg hk]
    simp only []
    rw [hfun]
    apply find?_map_replace_other
    · simpa using hk
    · intro x hx
      simp only [decide_eq_true_eq] at hx
      simp only [decide_eq_false_iff_not]
      rw [hx.1, hx.2]
      exact hk

/-! ## `restartDeployments`: what it leaves alone -/

theorem updateDeployment_cases (env : Env) (d : Deployment) (w : World) :
    (∃ err, updateDeployment env d w
        = (.error err, ⟨w.store, w.trace ++ [(.updateDeployment d, some err)]⟩)) ∨
    (∃ s, env.fault w.trace.length = none ∧ w.store.updateDeployment d = .ok ((), s) ∧
      updateDeployment env d w = (.ok (), ⟨s, w.trace ++ [(.updateDeployment d, none)]⟩)) := by
  unfold updateDeployment
  rcases call_cases env (.updateDeployment d) (fun s => s.updateDeployment d) w with
    ⟨code, _, h⟩ | ⟨err, _, _, h⟩ | ⟨a, s, hf, hs, h⟩
  · exact Or.inl ⟨_, h⟩
  · exact Or.inl ⟨_, h⟩
  · exact Or.inr ⟨s, hf, hs, h⟩

theorem restartLoop_frame (env : Env) (X : String) (items : List Deployment) (w : World) :
    ∃ new, (restartLoop env X items w).2.trace = w.trace ++ new ∧
      (∀ e ∈ new, e.1.onDeployment = true) ∧
      (restartLoop env X items w).2.store.configMaps = w.store.configMaps ∧
      (restartLoop env X items w).2.store.managers = w.store.managers := by
  induction items generalizing w with
  | nil => exact ⟨[], by simp [restartLoop], by simp, rfl, rfl⟩
  | cons d items ih =>
    unfold restartLoop
    by_cases hu : usesConfigMap d X = true
    · simp only [hu, if_true]
      rcases updateDeployment_cases env (setRestartedAt d (env.now w.trace.length)) w with
        ⟨err, h⟩ | ⟨s, _, hs, h⟩
      · rw [h]
        exact ⟨[_], rfl, by simp [Call.onDeployment], rfl, rfl⟩
      · rw [h]
        obtain ⟨new, h1, h2, h3, h4⟩ := ih ⟨s, w.trace ++
          [(.updateDeployment (setRestartedAt d (env.now w.trace.length)), none)]⟩
        have hcm := Store.updateDeployment_configMaps _ _ _ _ hs
        refine ⟨(.updateDeployment (setRestartedAt d (env.now w.trace.length)), none) :: new,
          ?_, ?_, ?_, ?_⟩
        · simp only [h1, List.append_assoc, List.singleton_append]
        · intro e he
          rcases List.mem_cons.1 he with rfl | he
          · rfl
          · exact h2 e he
        · simp only [h3, hcm.1]
        · simp only [h4, hcm.2]
    · simp only [hu, if_false]
      exact ih w

theorem restartDeployments_frame (env : Env) (ns X : String) (w : World) :
    ∃ new, (restartDeployments env ns X w).2.trace = w.trace ++ new ∧
      (∀ e ∈ new, e.1.onDeployment = true) ∧
      (restartDeployments env ns X w).2.store.configMaps = w.store.configMaps ∧
      (restartDeployments env ns X w).2.store.managers = w.store.managers := by
  unfold restartDeployments listDeployments
  rcases call_cases env (.listDeployments ns) (fun s => s.listDeployments ns) w with
    ⟨code, _, h⟩ | ⟨err, _, _, h⟩ | ⟨a, s, _, hs, h⟩
  · rw [h]
    exact ⟨[_], rfl, by simp [Call.onDeployment], rfl, rfl⟩
  · rw [h]
    exact ⟨[_], rfl, by simp [Call.onDeployment], rfl, rfl⟩
  · rw [h]
    simp only [Store.listDeployments, Except.ok.injEq, Prod.mk.injEq] at hs
    obtain ⟨-, rfl⟩ := hs
    obtain ⟨new, h1, h2, h3, h4⟩ :=
      restartLoop_frame env X a ⟨w.store, w.trace ++ [(.listDeployments ns, none)]⟩
    refine ⟨(.listDeployments ns, none) :: new, ?_, ?_, ?_, ?_⟩
    · simp only [h1, List.append_assoc, List.singleton_append]
    · intro e he
      rcases List.mem_cons.1 he with rfl | he
      · rfl
      · exact h2 e he
    · exact h3
    · exact h4

/-- The first call of `restartDeployments` is the list of the Deployments
of the namespace. -/
theorem restartDeployments_lists (env : Env) (ns X : String) (w : World) :
    ∃ o rest, (restartDeployments env ns X w).2.trace
      = w.trace ++ (Call.listDeployments ns, o) :: rest := by
  unfold restartDeployments listDeployments
  rcases call_cases env (.listDeployments ns) (fun s => s.listDeployments ns) w with
    ⟨code, _, h⟩ | ⟨err, _, _, h⟩ | ⟨a, s, _, _, h⟩
  · rw [h]
    exact ⟨some (.fault code), [], rfl⟩
  · rw [h]
    exact ⟨some err, [], rfl⟩
  · rw [h]
    obtain ⟨new, h1, -⟩ :=
      restartLoop_frame env X a ⟨s, w.trace ++ [(Call.listDeployments ns, none)]⟩
    refine ⟨none, new, ?_⟩
    simp only [h1, List.append_assoc, List.singleton_append]

theorem restartDeployments_find (env : Env) (ns X : String) (w : World) (ns' name : String) :
    (restartDeployments env ns X w).2.store.findConfigMap ns' name
      = w.store.findConfigMap ns' name := by
  obtain ⟨_, _, _, h, _⟩ := restartDeployments_frame env ns X w
  simp only [Store.findConfigMap, h]

/-! ## The branches of the loop body of `Reconcile` -/

theorem reconcileConfigMap_fault (env : Env) (ns : String) (cmSpec : ConfigMapSpec) (w : World)
    (code : Nat) (hf : env.fault w.trace.length = some code) :
    reconcileConfigMap env ns cmSpec w
      = (some (.fault code),
          ⟨w.store, w.trace ++ [(.getConfigMap ns cmSpec.Name, some (.fault code))]⟩) := by
  unfold reconcileConfigMap getConfigMap
  rw [call_fault env _ _ w code hf]
  simp

theorem reconcileConfigMap_absent (env : Env) (ns : String) (cmSpec : ConfigMapSpec) (w : World)
    (hf : env.fault w.trace.length = none) (habs : w.store.findConfigMap ns cmSpec.Name = none) :
    reconcileConfigMap env ns cmSpec w =
      match env.fault (w.trace.length + 1) with
      | some code =>
        (some (.fault code), ⟨w.store, w.trace ++ [(.getConfigMap ns cmSpec.Name, some .notFound),
          (.createConfigMap (createdConfigMap ns cmSpec), some (.fault code))]⟩)
      | none =>
        restartDeployments env ns cmSpec.Name
          ⟨w.store.withCreated (createdConfigMap ns cmSpec),
            w.trace ++ [(.getConfigMap ns cmSpec.Name, some .notFound),
              (.createConfigMap (createdConfigMap ns cmSpec), none)]⟩ := by
  unfold reconcileConfigMap getConfigMap
  rw [call_error env _ _ w .notFound hf (by simp [Store.getConfigMap, habs])]
  simp only [if_true]
  unfold createConfigMap
  cases hc : env.fault (w.trace.length + 1) with
  | some code =>
    rw [call_fault env _ _ _ code (by simpa using hc)]
    simp [createdConfigMap]
  | none =>
    rw [call_ok env _ _ _ () (w.store.withCreated (createdConfigMap ns cmSpec))
      (by simpa using hc) (by
        simp only [createdConfigMap, Store.withCreated]
        exact Store.createConfigMap_ok _ _ habs)]
    simp [createdConfigMap]

theorem reconcileConfigMap_found (env : Env) (ns : String) (cmSpec : ConfigMapSpec) (w : World)
    (cm : ConfigMap) (hf : env.fault w.trace.length = none)
    (hfound : w.store.findConfigMap ns cmSpec.Name = some cm) :
    reconcileConfigMap env ns cmSpec w =
      if (mergeUpdates (cm.Data.getD []) cmSpec.Updates).2 = true then
        match env.fault (w.trace.length + 1) with
        | some code =>
          (some (.fault code), ⟨w.store, w.trace ++ [(.getConfigMap ns cmSpec.Name, none),
            (.updateConfigMap (mergedConfigMap cm cmSpec), some (.fault code))]⟩)
        | none =>
          restartDeployments env ns cmSpec.Name
            ⟨w.store.withUpdated (mergedConfigMap cm cmSpec),
              w.trace ++ [(.getConfigMap ns cmSpec.Name, none),
                (.updateConfigMap (mergedConfigMap cm cmSpec), none)]⟩
      else (none, ⟨w.store, w.trace ++ [(.getConfigMap ns cmSpec.Name, none)]⟩) := by
  unfold reconcileConfigMap getConfigMap
  rw [call_ok env _ _ w cm w.store hf (by simp [Store.getConfigMap, hfound])]
  simp only []
  by_cases hch : (mergeUpdates (cm.Data.getD []) cmSpec.Updates).2 = true
  · simp only [hch, if_true]
    unfold updateConfigMap
    have hm : ({ cm with Data := some (mergeUpdates (cm.Data.getD []) cmSpec.Updates).1 }
        : ConfigMap) = mergedConfigMap cm cmSpec := by
      simp [mergedConfigMap, mergeUpdates_fst]
    rw [hm]
    have hkey := Store.findConfigMap_key _ _ _ _ hfound
    cases hc : env.fault (w.trace.length + 1) with
    | some code =>
      rw [call_fault env _ _ _ code (by simpa using hc)]
      simp
    | none =>
      rw [call_ok env _ _ _ () (w.store.withUpdated (mergedConfigMap cm cmSpec))
        (by simpa using hc) (by
          simp only [Store.withUpdated]
          apply Store.updateConfigMap_ok _ _ cm
          simpa [mergedConfigMap, hkey.1, hkey.2] using hfound)]
      simp
  · simp only [hch, if_false]
    simp

/-! ## Order of the updates -/

theorem lastValue_eq_some_iff_of_nodup (us : List ConfigMapUpdate)
    (hnd : (us.map (fun u => u.Key)).Nodup) (k v : String) :
    lastValue us k = some v ↔ ∃ u ∈ us, u.Key = k ∧ u.NewValue = v := by
  constructor
  · exact lastValue_eq_some us k v
  · rintro ⟨u, hu, rfl, rfl⟩
    obtain ⟨v', hv'⟩ := lastValue_isSome_of_mem us u hu
    obtain ⟨u', hu', hk, rfl⟩ := lastValue_eq_some us _ _ hv'
    have : u' = u := List.inj_on_of_nodup_map hnd hu' hu hk
    rw [hv', this]

theorem lastValue_perm (us vs : List ConfigMapUpdate) (hp : us.Perm vs)
    (hnd : (us.map (fun u => u.Key)).Nodup) (k : String) :
    lastValue us k = lastValue vs k := by
  have hnd' : (vs.map (fun u => u.Key)).Nodup := ((hp.map _).nodup_iff).1 hnd
  apply Option.ext
  intro v
  simp only [Option.mem_def]
  rw [lastValue_eq_some_iff_of_nodup us hnd, lastValue_eq_some_iff_of_nodup vs hnd']
  constructor
  · rintro ⟨u, hu, h⟩
    exact ⟨u, hp.mem_iff.1 hu, h⟩
  · rintro ⟨u, hu, h⟩
    exact ⟨u, hp.mem_iff.2 hu, h⟩

theorem lastValue_of_consistent (us : List ConfigMapUpdate) (hc : Consistent us)
    (u : ConfigMapUpdate) (hu : u ∈ us) : lastValue us u.Key = some u.NewValue := by
  obtain ⟨v, hv⟩ := lastValue_isSome_of_mem us u hu
  obtain ⟨u', hu', hk, rfl⟩ := lastValue_eq_some us _ _ hv
  rw [hv, hc u' hu' u hu hk]

/-! ## Claims on the two update loops -/

/-- C8: last write wins. Both the not-found branch (`applyUpdates`) and the
found branch (`mergeUpdates`) leave every key that occurs in the update list
with the value of the last update of that key, and every other key with its
observed value; for update lists with pairwise distinct keys the data read
back is the same for every order of the list. -/
theorem last_write_wins (observed : GoMap) (updates : List ConfigMapUpdate) :
    (∀ k, GoMap.get (applyUpdates observed updates) k
        = match lastValue updates k with
          | some v => some v
          | none => GoMap.get observed k) ∧
    (∀ k, GoMap.get (mergeUpdates observed updates).1 k
        = match lastValue updates k with
          | some v => some v
          | none => GoMap.get observed k) ∧
    (∀ reordered : List ConfigMapUpdate, updates.Perm reordered →
      (updates.map (fun u => u.Key)).Nodup →
      ∀ k, GoMap.get (applyUpdates observed reordered) k
            = GoMap.get (applyUpdates observed updates) k ∧
          GoMap.get (mergeUpdates observed reordered).1 k
            = GoMap.get (mergeUpdates observed updates).1 k) := by
  have key : ∀ (us : List ConfigMapUpdate) (k : String),
      GoMap.get (applyUpdates observed us) k
        = match lastValue us k with
          | some v => some v
          | none => GoMap.get observed k := by
    intro us k
    rw [get_applyUpdates]
    cases lastValue us k <;> rfl
  refine ⟨key updates, ?_, ?_⟩
  · intro k
    rw [mergeUpdates_fst]
    exact key updates k
  · intro reordered hp hnd k
    rw [mergeUpdates_fst, mergeUpdates_fst, key, key, lastValue_perm updates reordered hp hnd k]
    exact ⟨rfl, rfl⟩

/-- C8 at an instance: two updates of distinct keys in either order. -/
theorem last_write_wins_witness :
    GoMap.get (applyUpdates [("b", "2")] [⟨"c", "3"⟩, ⟨"a", "1"⟩]) "a"
      = GoMap.get (applyUpdates [("b", "2")] [⟨"a", "1"⟩, ⟨"c", "3"⟩]) "a" :=
  ((last_write_wins [("b", "2")] [⟨"a", "1"⟩, ⟨"c", "3"⟩]).2.2
    [⟨"c", "3"⟩, ⟨"a", "1"⟩] (List.Perm.swap _ _ _) (by decide) "a").1

/-! ## Claims on one pass of the loop body -/

theorem getConfigMap_ok (env : Env) (ns name : String) (w : World) (cm : ConfigMap)
    (h : (getConfigMap env ns name w).1 = .ok cm) :
    env.fault w.trace.length = none ∧ w.store.findConfigMap ns name = some cm := by
  unfold getConfigMap at h
  rcases call_cases env (.getConfigMap ns name) (fun s => s.getConfigMap ns name) w with
    ⟨code, _, hc⟩ | ⟨err, _, _, hc⟩ | ⟨a, s, hf, hs, hc⟩
  · rw [hc] at h; simp at h
  · rw [hc] at h; simp at h
  · rw [hc] at h
    simp only [Except.ok.injEq] at h
    subst h
    refine ⟨hf, ?_⟩
    simp only [Store.getConfigMap] at hs
    cases hfind : w.store.findConfigMap ns name with
    | none => simp [hfind] at hs
    | some c =>
      simp only [hfind, Except.ok.injEq, Prod.mk.injEq] at hs
      rw [hs.1]

theorem getConfigMap_notFound (env : Env) (ns name : String) (w : World)
    (h : (getConfigMap env ns name w).1 = .error .notFound) :
    env.fault w.trace.length = none ∧ w.store.findConfigMap ns name = none := by
  unfold getConfigMap at h
  rcases call_cases env (.getConfigMap ns name) (fun s => s.getConfigMap ns name) w with
    ⟨code, _, hc⟩ | ⟨err, hf, hs, hc⟩ | ⟨a, s, _, _, hc⟩
  · rw [hc] at h; simp at h
  · refine ⟨hf, ?_⟩
    simp only [Store.getConfigMap] at hs
    cases hfind : w.store.findConfigMap ns name with
    | none => rfl
    | some c => simp [hfind] at hs
  · rw [hc] at h; simp at h

/-- C4: no-op detection. When the ConfigMap exists and every update of the
list already holds in its data, the found branch leaves `updated` false,
returns no error, leaves the store as it is and issues no call besides the
read of the ConfigMap: no ConfigMap update, no Deployment list or update. -/
theorem noop_detection (env : Env) (ns : String) (cmSpec : ConfigMapSpec) (w : World)
    (cm : ConfigMap) (hget : (getConfigMap env ns cmSpec.Name w).1 = .ok cm)
    (hsat : ∀ u ∈ cmSpec.Updates, GoMap.get (cm.Data.getD []) u.Key = some u.NewValue) :
    (mergeUpdates (cm.Data.getD []) cmSpec.Updates).2 = false ∧
    reconcileConfigMap env ns cmSpec w
      = (none, ⟨w.store, w.trace ++ [(.getConfigMap ns cmSpec.Name, none)]⟩) := by
  obtain ⟨hf, hfound⟩ := getConfigMap_ok env ns cmSpec.Name w cm hget
  have hflag := (mergeUpdates_snd_false (cm.Data.getD []) cmSpec.Updates).2 hsat
  refine ⟨hflag, ?_⟩
  rw [reconcileConfigMap_found env ns cmSpec w cm hf hfound, hflag]
  simp

/-- C4 at the instance of the specification: observed `k ↦ v`, update `k := v`. -/
theorem noop_detection_witness :
    (mergeUpdates [("k", "v")] [⟨"k", "v"⟩]).2 = false ∧
    reconcileConfigMap quietEnv "default" ⟨"test-configmap", [⟨"k", "v"⟩]⟩
        ⟨⟨[], [⟨"test-configmap", "default", some [("k", "v")]⟩], []⟩, []⟩
      = (none, ⟨⟨[], [⟨"test-configmap", "default", some [("k", "v")]⟩], []⟩,
          [(.getConfigMap "default" "test-configmap", none)]⟩) :=
  noop_detection quietEnv "default" ⟨"test-configmap", [⟨"k", "v"⟩]⟩
    ⟨⟨[], [⟨"test-configmap", "default", some [("k", "v")]⟩], []⟩, []⟩
    ⟨"test-configmap", "default", some [("k", "v")]⟩ rfl (by decide)

/-- C5: create on absence. When the read of the target's ConfigMap returns
not-found, the pass issues, right after that read, one create of the
ConfigMap with the target's name, the request's namespace and the updates
assigned in order to the empty map, and no other create; when the create
fails its error is returned, and when it succeeds the pass continues with
`restartDeployments` for the target's name, whatever the update list is. -/
theorem create_on_absence (env : Env) (ns : String) (cmSpec : ConfigMapSpec) (w : World)
    (hget : (getConfigMap env ns cmSpec.Name w).1 = .error .notFound) :
    ∃ outcome rest,
      (reconcileConfigMap env ns cmSpec w).2.trace
        = w.trace ++ (.getConfigMap ns cmSpec.Name, some .notFound)
            :: (.createConfigMap ⟨cmSpec.Name, ns, some (applyUpdates [] cmSpec.Updates)⟩,
                  outcome) :: rest ∧
      (∀ e ∈ rest, ∀ cm, e.1 ≠ .createConfigMap cm) ∧
      (∀ err, outcome = some err →
        reconcileConfigMap env ns cmSpec w
          = (some err, ⟨w.store, w.trace ++ [(.getConfigMap ns cmSpec.Name, some .notFound),
              (.createConfigMap ⟨cmSpec.Name, ns, some (applyUpdates [] cmSpec.Updates)⟩,
                some err)]⟩)) ∧
      (outcome = none →
        reconcileConfigMap env ns cmSpec w
          = restartDeployments env ns cmSpec.Name
              ⟨{ w.store with configMaps := w.store.configMaps ++
                  [⟨cmSpec.Name, ns, some (applyUpdates [] cmSpec.Updates)⟩] },
                w.trace ++ [(.getConfigMap ns cmSpec.Name, some .notFound),
                  (.createConfigMap ⟨cmSpec.Name, ns, some (applyUpdates [] cmSpec.Updates)⟩,
                    none)]⟩) := by
  obtain ⟨hf, habs⟩ := getConfigMap_notFound env ns cmSpec.Name w hget
  have hrun := reconcileConfigMap_absent env ns cmSpec w hf habs
  simp only [createdConfigMap, Store.withCreated] at hrun
  cases hc : env.fault (w.trace.length + 1) with
  | some code =>
    rw [hc] at hrun
    simp only [] at hrun
    refine ⟨some (.fault code), [], ?_, by simp, ?_, by simp⟩
    · rw [hrun]
    · intro err herr
      simp only [Option.some.injEq] at herr
      rw [hrun, herr]
  | none =>
    rw [hc] at hrun
    simp only [] at hrun
    obtain ⟨new, h1, h2, -, -⟩ := restartDeployments_frame env ns cmSpec.Name
      ⟨{ w.store with configMaps := w.store.configMaps ++
          [⟨cmSpec.Name, ns, some (applyUpdates [] cmSpec.Updates)⟩] },
        w.trace ++ [(.getConfigMap ns cmSpec.Name, some .notFound),
          (.createConfigMap ⟨cmSpec.Name, ns, some (applyUpdates [] cmSpec.Updates)⟩, none)]⟩
    refine ⟨none, new, ?_, ?_, by simp, fun _ => hrun⟩
    · rw [hrun, h1]
      simp
    · intro e he cm hcm
      have := h2 e he
      rw [hcm] at this
      simp [Call.onDeployment] at this

/-- C5 at an instance with an empty update list: the create is issued
right after the read. -/
theorem create_on_absence_witness :
    ∃ outcome rest,
      (reconcileConfigMap quietEnv "default" ⟨"test-configmap", []⟩ ⟨⟨[], [], []⟩, []⟩).2.trace
        = [] ++ (.getConfigMap "default" "test-configmap", some .notFound)
            :: (.createConfigMap ⟨"test-configmap", "default", some (applyUpdates [] [])⟩,
                  outcome) :: rest := by
  obtain ⟨outcome, rest, h, -⟩ :=
    create_on_absence quietEnv "default" ⟨"test-configmap", []⟩ ⟨⟨[], [], []⟩, []⟩ rfl
  exact ⟨outcome, rest, h⟩

/-- C10: absent data is the empty map. For an existing ConfigMap whose data
is nil, the found branch sets `updated` exactly when the update list is not
empty and computes the updates assigned in order to the empty map; with an
empty list the pass only reads the ConfigMap (no update, no notification),
and with a non-empty list the call after the read is the update carrying
that map. -/
theorem absent_data (env : Env) (ns : String) (cmSpec : ConfigMapSpec) (w : World)
    (cm : ConfigMap) (hget : (getConfigMap env ns cmSpec.Name w).1 = .ok cm)
    (hnil : cm.Data = none) :
    ((mergeUpdates (cm.Data.getD []) cmSpec.Updates).2 = true ↔ cmSpec.Updates ≠ []) ∧
    (mergeUpdates (cm.Data.getD []) cmSpec.Updates).1 = applyUpdates [] cmSpec.Updates ∧
    (cmSpec.Updates = [] →
      reconcileConfigMap env ns cmSpec w
        = (none, ⟨w.store, w.trace ++ [(.getConfigMap ns cmSpec.Name, none)]⟩)) ∧
    (cmSpec.Updates ≠ [] → ∃ outcome rest,
      (reconcileConfigMap env ns cmSpec w).2.trace
        = w.trace ++ (.getConfigMap ns cmSpec.Name, none)
            :: (.updateConfigMap { cm with Data := some (applyUpdates [] cmSpec.Updates) },
                  outcome) :: rest) := by
  obtain ⟨hf, hfound⟩ := getConfigMap_ok env ns cmSpec.Name w cm hget
  have hrun := reconcileConfigMap_found env ns cmSpec w cm hf hfound
  simp only [mergedConfigMap, Store.withUpdated] at hrun
  rw [hnil] at hrun ⊢
  simp only [Option.getD_none] at hrun ⊢
  have hflag : (mergeUpdates [] cmSpec.Updates).2 = true ↔ cmSpec.Updates ≠ [] := by
    rw [ne_eq, ← Bool.not_eq_false, not_iff_not, mergeUpdates_snd_false]
    constructor
    · intro h
      cases hu : cmSpec.Updates with
      | nil => rfl
      | cons u us =>
        have := h u (by rw [hu]; exact List.mem_cons_self _ _)
        simp [GoMap.get] at this
    · intro h u hu
      rw [h] at hu
      simp at hu
  refine ⟨hflag, mergeUpdates_fst _ _, ?_, ?_⟩
  · intro hempty
    have : (mergeUpdates [] cmSpec.Updates).2 = false := by
      rw [hempty]; rfl
    rw [hrun, this]
    simp
  · intro hne
    rw [hflag.2 hne] at hrun
    simp only [if_true] at hrun
    cases hc : env.fault (w.trace.length + 1) with
    | some code =>
      rw [hc] at hrun
      simp only [] at hrun
      exact ⟨some (.fault code), [], by rw [hrun]⟩
    | none =>
      rw [hc] at hrun
      simp only [] at hrun
      rw [hrun]
      obtain ⟨new, h1, -⟩ := restartDeployments_frame env ns cmSpec.Name
        ⟨{ w.store with configMaps := w.store.configMaps.map (fun c =>
            if c.Namespace = cm.Namespace ∧ c.Name = cm.Name
            then { cm with Data := some (applyUpdates [] cmSpec.Updates) } else c) },
          w.trace ++ [(.getConfigMap ns cmSpec.Name, none),
            (.updateConfigMap { cm with Data := some (applyUpdates [] cmSpec.Updates) }, none)]⟩
      refine ⟨none, new, ?_⟩
      rw [h1]
      simp

/-- C10 at an instance: an existing ConfigMap with nil data and no update. -/
theorem absent_data_witness :
    reconcileConfigMap quietEnv "default" ⟨"test-configmap", []⟩
        ⟨⟨[], [⟨"test-configmap", "default", none⟩], []⟩, []⟩
      = (none, ⟨⟨[], [⟨"test-configmap", "default", none⟩], []⟩,
          [] ++ [(.getConfigMap "default" "test-configmap", none)]⟩) :=
  (absent_data quietEnv "default" ⟨"test-configmap", []⟩
    ⟨⟨[], [⟨"test-configmap", "default", none⟩], []⟩, []⟩
    ⟨"test-configmap", "default", none⟩ rfl rfl).2.2.1 rfl

/-- The calls of the found branch: the read alone when `updated` is false,
else the read, the update of the merged ConfigMap and calls on Deployments. -/
theorem reconcileConfigMap_found_calls (env : Env) (ns : String) (T : ConfigMapSpec) (w : World)
    (cm : ConfigMap) (hf : env.fault w.trace.length = none)
    (hfound : w.store.findConfigMap ns T.Name = some cm) :
    ((mergeUpdates (cm.Data.getD []) T.Updates).2 = false →
      (reconcileConfigMap env ns T w).2.trace.drop w.trace.length
        = [(Call.getConfigMap ns T.Name, none)]) ∧
    ((mergeUpdates (cm.Data.getD []) T.Updates).2 = true → ∃ o rest,
      (reconcileConfigMap env ns T w).2.trace.drop w.trace.length
        = (Call.getConfigMap ns T.Name, none)
            :: (Call.updateConfigMap (mergedConfigMap cm T), o) :: rest ∧
      ∀ e ∈ rest, e.1.onDeployment = true) := by
  have hrun := reconcileConfigMap_found env ns T w cm hf hfound
  constructor
  · intro hflag
    rw [hrun, hflag]
    simp
  · intro hflag
    rw [hflag] at hrun
    simp only [if_true] at hrun
    cases hc : env.fault (w.trace.length + 1) with
    | some code =>
      rw [hc] at hrun
      simp only [] at hrun
      exact ⟨some (.fault code), [], by rw [hrun]; simp, by simp⟩
    | none =>
      rw [hc] at hrun
      simp only [] at hrun
      obtain ⟨new, h1, h2, -, -⟩ := restartDeployments_frame env ns T.Name
        ⟨w.store.withUpdated (mergedConfigMap cm T),
          w.trace ++ [(.getConfigMap ns T.Name, none),
            (.updateConfigMap (mergedConfigMap cm T), none)]⟩
      refine ⟨none, new, ?_, h2⟩
      rw [hrun, h1]
      simp

/-- C9 as stated fails: with the observed data `a ↦ 1` and the updates
`a := 9`, `a := 1`, the found branch sets `updated` although the data it
computes is the observed data, and it issues the update and lists the
Deployments. -/
theorem change_decision_counterexample :
    (mergeUpdates [("a", "1")] [⟨"a", "9"⟩, ⟨"a", "1"⟩]).2 = true ∧
    (mergeUpdates [("a", "1")] [⟨"a", "9"⟩, ⟨"a", "1"⟩]).1 = [("a", "1")] ∧
    (reconcileConfigMap quietEnv "default" ⟨"test-configmap", [⟨"a", "9"⟩, ⟨"a", "1"⟩]⟩
        ⟨⟨[], [⟨"test-configmap", "default", some [("a", "1")]⟩], []⟩, []⟩).2.trace
      = [(.getConfigMap "default" "test-configmap", none),
         (.updateConfigMap ⟨"test-configmap", "default", some [("a", "1")]⟩, none),
         (.listDeployments "default", none)] := by
  decide

/-- C9, amended: for an existing ConfigMap, the found branch issues the
update of the merged ConfigMap exactly when `updated` is set; when `updated`
is set and the update succeeds the pass continues with `restartDeployments`
for the target (the notification), when the update fails its error is
returned, and when `updated` is not set the pass ends after the read, so
that the Deployments are listed exactly when `updated` is set and the update
has succeeded; `updated` is set whenever the merged data differs from the
observed data; and when no key occurs in the update list with two different
values, `updated` is set exactly when the merged data differs from the
observed data. -/
theorem change_decision (env : Env) (ns : String) (cmSpec : ConfigMapSpec) (w : World)
    (cm : ConfigMap) (hget : (getConfigMap env ns cmSpec.Name w).1 = .ok cm) :
    ((mergeUpdates (cm.Data.getD []) cmSpec.Updates).2 = true ↔
      ∃ o, (Call.updateConfigMap
              { cm with Data := some (mergeUpdates (cm.Data.getD []) cmSpec.Updates).1 }, o)
        ∈ (reconcileConfigMap env ns cmSpec w).2.trace.drop w.trace.length) ∧
    ((∃ o, (Call.listDeployments ns, o)
        ∈ (reconcileConfigMap env ns cmSpec w).2.trace.drop w.trace.length) →
      (mergeUpdates (cm.Data.getD []) cmSpec.Updates).2 = true) ∧
    ((∃ k, GoMap.get (mergeUpdates (cm.Data.getD []) cmSpec.Updates).1 k
        ≠ GoMap.get (cm.Data.getD []) k) →
      (mergeUpdates (cm.Data.getD []) cmSpec.Updates).2 = true) ∧
    (Consistent cmSpec.Updates →
      ((mergeUpdates (cm.Data.getD []) cmSpec.Updates).2 = true ↔
        ∃ k, GoMap.get (mergeUpdates (cm.Data.getD []) cmSpec.Updates).1 k
          ≠ GoMap.get (cm.Data.getD []) k)) ∧
    ((mergeUpdates (cm.Data.getD []) cmSpec.Updates).2 = true →
      env.fault (w.trace.length + 1) = none →
      reconcileConfigMap env ns cmSpec w
        = restartDeployments env ns cmSpec.Name
            ⟨w.store.withUpdated
                { cm with Data := some (mergeUpdates (cm.Data.getD []) cmSpec.Updates).1 },
              w.trace ++ [(Call.getConfigMap ns cmSpec.Name, none),
                (Call.updateConfigMap
                  { cm with Data := some (mergeUpdates (cm.Data.getD []) cmSpec.Updates).1 },
                  none)]⟩) ∧
    (∀ code, (mergeUpdates (cm.Data.getD []) cmSpec.Updates).2 = true →
      env.fault (w.trace.length + 1) = some code →
      reconcileConfigMap env ns cmSpec w
        = (some (.fault code),
            ⟨w.store, w.trace ++ [(Call.getConfigMap ns cmSpec.Name, none),
              (Call.updateConfigMap
                { cm with Data := some (mergeUpdates (cm.Data.getD []) cmSpec.Updates).1 },
                some (.fault code))]⟩)) ∧
    ((mergeUpdates (cm.Data.getD []) cmSpec.Updates).2 = false →
      reconcileConfigMap env ns cmSpec w
        = (none, ⟨w.store, w.trace ++ [(Call.getConfigMap ns cmSpec.Name, none)]⟩)) ∧
    ((∃ o, (Call.listDeployments ns, o)
        ∈ (reconcileConfigMap env ns cmSpec w).2.trace.drop w.trace.length) ↔
      ((mergeUpdates (cm.Data.getD []) cmSpec.Updates).2 = true ∧
        env.fault (w.trace.length + 1) = none)) := by
  obtain ⟨hf, hfound⟩ := getConfigMap_ok env ns cmSpec.Name w cm hget
  obtain ⟨hquiet, hcalls⟩ := reconcileConfigMap_found_calls env ns cmSpec w cm hf hfound
  have hm : mergedConfigMap cm cmSpec
      = { cm with Data := some (mergeUpdates (cm.Data.getD []) cmSpec.Updates).1 } := by
    simp [mergedConfigMap, mergeUpdates_fst]
  have hrun := reconcileConfigMap_found env ns cmSpec w cm hf hfound
  rw [hm] at hrun
  have hnot : (mergeUpdates (cm.Data.getD []) cmSpec.Updates).2 = false →
      ∀ e ∈ (reconcileConfigMap env ns cmSpec w).2.trace.drop w.trace.length,
        e = (Call.getConfigMap ns cmSpec.Name, none) := by
    intro hflag e he
    rw [hquiet hflag] at he
    simpa using he
  have h1 : (∃ k, GoMap.get (mergeUpdates (cm.Data.getD []) cmSpec.Updates).1 k
        ≠ GoMap.get (cm.Data.getD []) k) →
      (mergeUpdates (cm.Data.getD []) cmSpec.Updates).2 = true := by
    rintro ⟨k, hk⟩
    by_contra hne
    have hfalse : (mergeUpdates (cm.Data.getD []) cmSpec.Updates).2 = false := by
      simpa using hne
    rw [mergeUpdates_snd_false] at hfalse
    rw [mergeUpdates_fst, applyUpdates_of_sat _ _ hfalse] at hk
    exact hk rfl
  have hlist : (∃ o, (Call.listDeployments ns, o)
        ∈ (reconcileConfigMap env ns cmSpec w).2.trace.drop w.trace.length) →
      (mergeUpdates (cm.Data.getD []) cmSpec.Updates).2 = true := by
    intro hex
    by_contra hne
    obtain ⟨o, ho⟩ := hex
    have := hnot (by simpa using hne) _ ho
    simp at this
  have hsucc : (mergeUpdates (cm.Data.getD []) cmSpec.Updates).2 = true →
      env.fault (w.trace.length + 1) = none →
      reconcileConfigMap env ns cmSpec w
        = restartDeployments env ns cmSpec.Name
            ⟨w.store.withUpdated
                { cm with Data := some (mergeUpdates (cm.Data.getD []) cmSpec.Updates).1 },
              w.trace ++ [(Call.getConfigMap ns cmSpec.Name, none),
                (Call.updateConfigMap
                  { cm with Data := some (mergeUpdates (cm.Data.getD []) cmSpec.Updates).1 },
                  none)]⟩ := by
    intro hflag hc
    rw [hrun, if_pos hflag, hc]
  have hfail : ∀ code, (mergeUpdates (cm.Data.getD []) cmSpec.Updates).2 = true →
      env.fault (w.trace.length + 1) = some code →
      reconcileConfigMap env ns cmSpec w
        = (some (.fault code),
            ⟨w.store, w.trace ++ [(Call.getConfigMap ns cmSpec.Name, none),
              (Call.updateConfigMap
                { cm with Data := some (mergeUpdates (cm.Data.getD []) cmSpec.Updates).1 },
                some (.fault code))]⟩) := by
    intro code hflag hc
    rw [hrun, if_pos hflag, hc]
  have hskip : (mergeUpdates (cm.Data.getD []) cmSpec.Updates).2 = false →
      reconcileConfigMap env ns cmSpec w
        = (none, ⟨w.store, w.trace ++ [(Call.getConfigMap ns cmSpec.Name, none)]⟩) := by
    intro hflag
    rw [hrun, hflag]
    simp
  refine ⟨⟨fun hflag => ?_, fun hex => ?_⟩, hlist, h1, fun hc => ⟨fun hchanged => ?_, h1⟩,
    hsucc, hfail, hskip, ⟨fun hex => ⟨hlist hex, ?_⟩, fun hboth => ?_⟩⟩
  · obtain ⟨o, rest, hdrop, -⟩ := hcalls hflag
    refine ⟨o, ?_⟩
    rw [hdrop, mergeUpdates_fst]
    simp [mergedConfigMap]
  · by_contra hne
    obtain ⟨o, ho⟩ := hex
    have := hnot (by simpa using hne) _ ho
    simp at this
  · have hnf : ¬ ∀ u ∈ cmSpec.Updates,
        GoMap.get (cm.Data.getD []) u.Key = some u.NewValue := by
      intro hall
      rw [(mergeUpdates_snd_false _ _).2 hall] at hchanged
      exact Bool.false_ne_true hchanged
    push_neg at hnf
    obtain ⟨u, hu, hne⟩ := hnf
    refine ⟨u.Key, ?_⟩
    rw [mergeUpdates_fst, get_applyUpdates, lastValue_of_consistent _ hc u hu]
    simpa using Ne.symm hne
  · cases hc : env.fault (w.trace.length + 1) with
    | none => rfl
    | some code =>
      obtain ⟨o, ho⟩ := hex
      rw [hfail code (hlist ⟨o, ho⟩) hc] at ho
      simp at ho
  · obtain ⟨o, rest, hl⟩ := restartDeployments_lists env ns cmSpec.Name
      ⟨w.store.withUpdated
          { cm with Data := some (mergeUpdates (cm.Data.getD []) cmSpec.Updates).1 },
        w.trace ++ [(Call.getConfigMap ns cmSpec.Name, none),
          (Call.updateConfigMap
            { cm with Data := some (mergeUpdates (cm.Data.getD []) cmSpec.Updates).1 },
            none)]⟩
    refine ⟨o, ?_⟩
    rw [hsucc hboth.1 hboth.2, hl]
    simp

/-- C9 (amended) at an instance: one update that changes a value, next to a
Deployment that loads the ConfigMap. `updated` is set exactly because the
merged data differs, the pass continues with `restartDeployments`, and the
calls are the read, the update, the list and the update of the Deployment. -/
theorem change_decision_witness :
    ((mergeUpdates [("a", "1"), ("b", "2")] [⟨"a", "9"⟩]).2 = true ↔
      ∃ k, GoMap.get (mergeUpdates [("a", "1"), ("b", "2")] [⟨"a", "9"⟩]).1 k
        ≠ GoMap.get [("a", "1"), ("b", "2")] k) ∧
    reconcileConfigMap quietEnv "default" ⟨"test-configmap", [⟨"a", "9"⟩]⟩
        ⟨⟨[], [⟨"test-configmap", "default", some [("a", "1"), ("b", "2")]⟩],
          [⟨"test-deployment", "default", none, [],
            [⟨"test-container", [⟨some ⟨"test-configmap"⟩⟩]⟩]⟩]⟩, []⟩
      = restartDeployments quietEnv "default" "test-configmap"
          ⟨Store.withUpdated
              ⟨[], [⟨"test-configmap", "default", some [("a", "1"), ("b", "2")]⟩],
                [⟨"test-deployment", "default", none, [],
                  [⟨"test-container", [⟨some ⟨"test-configmap"⟩⟩]⟩]⟩]⟩
              ⟨"test-configmap", "default",
                some (mergeUpdates [("a", "1"), ("b", "2")] [⟨"a", "9"⟩]).1⟩,
            [] ++ [(Call.getConfigMap "default" "test-configmap", none),
              (Call.updateConfigMap ⟨"test-configmap", "default",
                some (mergeUpdates [("a", "1"), ("b", "2")] [⟨"a", "9"⟩]).1⟩, none)]⟩ ∧
    (reconcileConfigMap quietEnv "default" ⟨"test-configmap", [⟨"a", "9"⟩]⟩
        ⟨⟨[], [⟨"test-configmap", "default", some [("a", "1"), ("b", "2")]⟩],
          [⟨"test-deployment", "default", none, [],
            [⟨"test-container", [⟨some ⟨"test-configmap"⟩⟩]⟩]⟩]⟩, []⟩).2.trace.map
        (fun e => e.1)
      = [.getConfigMap "default" "test-configmap",
         .updateConfigMap ⟨"test-configmap", "default", some [("a", "9"), ("b", "2")]⟩,
         .listDeployments "default",
         .updateDeployment ⟨"test-deployment", "default",
            some [("configmapmanager/restartedAt", "2024-01-01T00:00:00Z")], [],
            [⟨"test-container", [⟨some ⟨"test-configmap"⟩⟩]⟩]⟩] :=
  ⟨(change_decision quietEnv "default" ⟨"test-configmap", [⟨"a", "9"⟩]⟩
      ⟨⟨[], [⟨"test-configmap", "default", some [("a", "1"), ("b", "2")]⟩],
        [⟨"test-deployment", "default", none, [],
          [⟨"test-container", [⟨some ⟨"test-configmap"⟩⟩]⟩]⟩]⟩, []⟩
      ⟨"test-configmap", "default", some [("a", "1"), ("b", "2")]⟩ rfl).2.2.2.1 (by
      intro u hu u' hu' _
      simp only [List.mem_singleton] at hu hu'
      rw [hu, hu']),
    (change_decision quietEnv "default" ⟨"test-configmap", [⟨"a", "9"⟩]⟩
      ⟨⟨[], [⟨"test-configmap", "default", some [("a", "1"), ("b", "2")]⟩],
        [⟨"test-deployment", "default", none, [],
          [⟨"test-container", [⟨some ⟨"test-configmap"⟩⟩]⟩]⟩]⟩, []⟩
      ⟨"test-configmap", "default", some [("a", "1"), ("b", "2")]⟩ rfl).2.2.2.2.1
      (by decide) rfl,
    by decide⟩

/-! ## Effect of one pass of the loop body on the ConfigMaps -/

/-- What one pass of the loop body does to the ConfigMaps of the store:
nothing, one create, or one update of the target. -/
theorem reconcileConfigMap_store (env : Env) (ns : String) (T : ConfigMapSpec) (w : World) :
    ((∀ ns' name, (reconcileConfigMap env ns T w).2.store.findConfigMap ns' name
          = w.store.findConfigMap ns' name) ∧
      ((reconcileConfigMap env ns T w).1 = none →
        ∃ cm, w.store.findConfigMap ns T.Name = some cm ∧
          (mergeUpdates (cm.Data.getD []) T.Updates).2 = false)) ∨
    (w.store.findConfigMap ns T.Name = none ∧
      ∀ ns' name, (reconcileConfigMap env ns T w).2.store.findConfigMap ns' name
        = if ns = ns' ∧ T.Name = name then some (createdConfigMap ns T)
          else w.store.findConfigMap ns' name) ∨
    (∃ cm, w.store.findConfigMap ns T.Name = some cm ∧
      ∀ ns' name, (reconcileConfigMap env ns T w).2.store.findConfigMap ns' name
        = if ns = ns' ∧ T.Name = name then some (mergedConfigMap cm T)
          else w.store.findConfigMap ns' name) := by
  cases hf : env.fault w.trace.length with
  | some code =>
    rw [reconcileConfigMap_fault env ns T w code hf]
    exact Or.inl ⟨fun _ _ => rfl, fun h => by simp at h⟩
  | none =>
    cases hfind : w.store.findConfigMap ns T.Name with
    | none =>
      rw [reconcileConfigMap_absent env ns T w hf hfind]
      cases hc : env.fault (w.trace.length + 1) with
      | some code => exact Or.inl ⟨fun _ _ => rfl, fun h => by simp at h⟩
      | none =>
        refine Or.inr (Or.inl ⟨rfl, fun ns' name => ?_⟩)
        simp only []
        rw [restartDeployments_find]
        exact find_after_create w.store (createdConfigMap ns T) hfind ns' name
    | some cm =>
      rw [reconcileConfigMap_found env ns T w cm hf hfind]
      have hkey := Store.findConfigMap_key _ _ _ _ hfind
      by_cases hch : (mergeUpdates (cm.Data.getD []) T.Updates).2 = true
      · rw [if_pos hch]
        cases hc : env.fault (w.trace.length + 1) with
        | some code => exact Or.inl ⟨fun _ _ => rfl, fun h => by simp at h⟩
        | none =>
          refine Or.inr (Or.inr ⟨cm, rfl, fun ns' name => ?_⟩)
          simp only []
          rw [restartDeployments_find]
          have := find_after_update w.store (mergedConfigMap cm T) cm
            (by simpa [mergedConfigMap, hkey.1, hkey.2] using hfind) ns' name
          simpa [mergedConfigMap, hkey.1, hkey.2, Store.withUpdated] using this
      · rw [if_neg hch]
        exact Or.inl ⟨fun _ _ => rfl, fun _ => ⟨cm, rfl, by simpa using hch⟩⟩

theorem get_applyUpdates_preserved (m : GoMap) (us : List ConfigMapUpdate) (k v : String)
    (hm : GoMap.get m k = some v) (hus : ∀ u ∈ us, u.Key = k → u.NewValue = v) :
    GoMap.get (applyUpdates m us) k = some v := by
  induction us generalizing m with
  | nil => exact hm
  | cons u us ih =>
    rw [applyUpdates_cons]
    apply ih
    · rw [GoMap.get_set]
      by_cases hk : k = u.Key
      · rw [if_pos hk, hus u (List.mem_cons_self _ _) hk.symm]
      · rw [if_neg hk, hm]
    · exact fun x hx => hus x (List.mem_cons_of_mem _ hx)

theorem get_applyUpdates_untouched (m : GoMap) (us : List ConfigMapUpdate) (k : String)
    (hus : ∀ u ∈ us, u.Key ≠ k) : GoMap.get (applyUpdates m us) k = GoMap.get m k := by
  rw [get_applyUpdates, (lastValue_eq_none us k).2 hus]
  rfl

theorem get_applyUpdates_isSome (m : GoMap) (us : List ConfigMapUpdate) (k v : String)
    (hm : GoMap.get m k = some v) : ∃ v', GoMap.get (applyUpdates m us) k = some v' := by
  rw [get_applyUpdates]
  cases lastValue us k with
  | none => exact ⟨v, hm⟩
  | some v' => exact ⟨v', rfl⟩

theorem mergedConfigMap_value (cm : ConfigMap) (T : ConfigMapSpec) (k : String) :
    (mergedConfigMap cm T).value k = GoMap.get (applyUpdates (cm.Data.getD []) T.Updates) k :=
  rfl

/-- One pass of the loop body only merges: a ConfigMap of the store stays,
keeps its keys, and keeps the value of every key the target does not update. -/
theorem reconcileConfigMap_merges (env : Env) (ns : String) (T : ConfigMapSpec) (w : World)
    (ns' name : String) (cm : ConfigMap) (hcm : w.store.findConfigMap ns' name = some cm) :
    ∃ cm', (reconcileConfigMap env ns T w).2.store.findConfigMap ns' name = some cm' ∧
      (∀ k v, cm.value k = some v → ∃ v', cm'.value k = some v') ∧
      (∀ k, (ns' = ns → T.Name = name → ∀ u ∈ T.Updates, u.Key ≠ k) →
        cm'.value k = cm.value k) := by
  rcases reconcileConfigMap_store env ns T w with ⟨h, -⟩ | ⟨habs, h⟩ | ⟨cm0, hfound, h⟩
  · exact ⟨cm, by rw [h, hcm], fun k v hv => ⟨v, hv⟩, fun _ _ => rfl⟩
  · have hne : ¬ (ns = ns' ∧ T.Name = name) := by
      rintro ⟨rfl, rfl⟩
      rw [habs] at hcm
      exact Option.noConfusion hcm
    exact ⟨cm, by rw [h, if_neg hne, hcm], fun k v hv => ⟨v, hv⟩, fun _ _ => rfl⟩
  · by_cases hk : ns = ns' ∧ T.Name = name
    · obtain ⟨rfl, rfl⟩ := hk
      rw [hcm] at hfound
      simp only [Option.some.injEq] at hfound
      subst hfound
      refine ⟨mergedConfigMap cm T, by rw [h, if_pos ⟨rfl, rfl⟩], ?_, ?_⟩
      · intro k v hv
        rw [mergedConfigMap_value]
        exact get_applyUpdates_isSome _ _ k v hv
      · intro k hk
        rw [mergedConfigMap_value]
        exact get_applyUpdates_untouched _ _ k (hk rfl rfl)
    · exact ⟨cm, by rw [h, if_neg hk, hcm], fun k v hv => ⟨v, hv⟩, fun _ _ => rfl⟩

theorem reconcileConfigMaps_cons (env : Env) (ns : String) (T : ConfigMapSpec)
    (rest : List ConfigMapSpec) (w : World) :
    (∃ err, (reconcileConfigMap env ns T w).1 = some err ∧
      reconcileConfigMaps env ns (T :: rest) w = (some err, (reconcileConfigMap env ns T w).2)) ∨
    ((reconcileConfigMap env ns T w).1 = none ∧
      reconcileConfigMaps env ns (T :: rest) w
        = reconcileConfigMaps env ns rest (reconcileConfigMap env ns T w).2) := by
  rw [reconcileConfigMaps]
  rcases hres : reconcileConfigMap env ns T w with ⟨r, w1⟩
  cases r with
  | some err => exact Or.inl ⟨err, rfl, rfl⟩
  | none => exact Or.inr ⟨rfl, rfl⟩

theorem reconcileConfigMaps_merges (env : Env) (ns : String) (targets : List ConfigMapSpec)
    (w : World) (ns' name : String) (cm : ConfigMap)
    (hcm : w.store.findConfigMap ns' name = some cm) :
    ∃ cm', (reconcileConfigMaps env ns targets w).2.store.findConfigMap ns' name = some cm' ∧
      (∀ k v, cm.value k = some v → ∃ v', cm'.value k = some v') ∧
      (∀ k, (∀ T ∈ targets, ns' = ns → T.Name = name → ∀ u ∈ T.Updates, u.Key ≠ k) →
        cm'.value k = cm.value k) := by
  induction targets generalizing w cm with
  | nil => exact ⟨cm, hcm, fun k v hv => ⟨v, hv⟩, fun _ _ => rfl⟩
  | cons T rest ih =>
    obtain ⟨cm1, h1, hkeys1, hframe1⟩ := reconcileConfigMap_merges env ns T w ns' name cm hcm
    rcases reconcileConfigMaps_cons env ns T rest w with ⟨err, -, hrun⟩ | ⟨-, hrun⟩
    · rw [hrun]
      exact ⟨cm1, h1, hkeys1, fun k hk => hframe1 k (hk T (List.mem_cons_self _ _))⟩
    · rw [hrun]
      obtain ⟨cm2, h2, hkeys2, hframe2⟩ := ih _ cm1 h1
      refine ⟨cm2, h2, ?_, ?_⟩
      · intro k v hv
        obtain ⟨v1, hv1⟩ := hkeys1 k v hv
        exact hkeys2 k v1 hv1
      · intro k hk
        rw [hframe2 k (fun T' hT' => hk T' (List.mem_cons_of_mem _ hT')),
          hframe1 k (hk T (List.mem_cons_self _ _))]

/-- The three ways `Reconcile` starts. -/
theorem Reconcile_cases (env : Env) (req : Request) (w : World) :
    (∃ code, env.fault w.trace.length = some code ∧
      Reconcile env req w = (some (.fault code),
        ⟨w.store, w.trace ++ [(.getManager req.Namespace req.Name, some (.fault code))]⟩)) ∨
    (env.fault w.trace.length = none ∧ w.store.findManager req.Namespace req.Name = none ∧
      Reconcile env req w = (none,
        ⟨w.store, w.trace ++ [(.getManager req.Namespace req.Name, some .notFound)]⟩)) ∨
    (∃ m, env.fault w.trace.length = none ∧
      w.store.findManager req.Namespace req.Name = some m ∧
      Reconcile env req w = reconcileConfigMaps env req.Namespace m.Spec.ConfigMaps
        ⟨w.store, w.trace ++ [(.getManager req.Namespace req.Name, none)]⟩) := by
  unfold Reconcile getManager
  cases hf : env.fault w.trace.length with
  | some code =>
    rw [call_fault env _ _ w code hf]
    exact Or.inl ⟨code, rfl, by simp⟩
  | none =>
    cases hm : w.store.findManager req.Namespace req.Name with
    | none =>
      rw [call_error env _ _ w .notFound hf (by simp [Store.getManager, hm])]
      exact Or.inr (Or.inl ⟨rfl, rfl, by simp⟩)
    | some m =>
      rw [call_ok env _ _ w m w.store hf (by simp [Store.getManager, hm])]
      exact Or.inr (Or.inr ⟨m, rfl, rfl, rfl⟩)

/-! ## Convergence of the loop of `Reconcile` -/

/-- After a pass of the loop body that returns no error, the ConfigMap of
the target exists and its data is the updates assigned to some map. -/
theorem reconcileConfigMap_post (env : Env) (ns : String) (T : ConfigMapSpec) (w : World)
    (hok : (reconcileConfigMap env ns T w).1 = none) :
    ∃ cm' m0, (reconcileConfigMap env ns T w).2.store.findConfigMap ns T.Name = some cm' ∧
      cm'.Data.getD [] = applyUpdates m0 T.Updates := by
  rcases reconcileConfigMap_store env ns T w with ⟨h, hflag⟩ | ⟨-, h⟩ | ⟨cm, -, h⟩
  · obtain ⟨cm, hfound, hfalse⟩ := hflag hok
    refine ⟨cm, cm.Data.getD [], by rw [h, hfound], ?_⟩
    rw [applyUpdates_of_sat _ _ ((mergeUpdates_snd_false _ _).1 hfalse)]
  · exact ⟨createdConfigMap ns T, [], by rw [h, if_pos ⟨rfl, rfl⟩], rfl⟩
  · exact ⟨mergedConfigMap cm T, cm.Data.getD [], by rw [h, if_pos ⟨rfl, rfl⟩], rfl⟩

theorem reconcileConfigMap_establish (env : Env) (ns : String) (T : ConfigMapSpec) (w : World)
    (hok : (reconcileConfigMap env ns T w).1 = none)
    (upre : List ConfigMapUpdate) (u : ConfigMapUpdate) (upost : List ConfigMapUpdate)
    (hT : T.Updates = upre ++ u :: upost)
    (hlater : ∀ u' ∈ upost, u'.Key = u.Key → u'.NewValue = u.NewValue) :
    Holds (reconcileConfigMap env ns T w).2.store ns T.Name u.Key u.NewValue := by
  obtain ⟨cm', m0, hfind, hdata⟩ := reconcileConfigMap_post env ns T w hok
  refine ⟨cm', hfind, ?_⟩
  unfold ConfigMap.value
  rw [hdata, hT, applyUpdates_append, applyUpdates_cons]
  exact get_applyUpdates_preserved _ _ _ _ (GoMap.get_set_same _ _ _) hlater

theorem reconcileConfigMap_preserve (env : Env) (ns : String) (T : ConfigMapSpec) (w : World)
    (X k v : String) (hholds : Holds w.store ns X k v)
    (hT : T.Name = X → ∀ u ∈ T.Updates, u.Key = k → u.NewValue = v) :
    Holds (reconcileConfigMap env ns T w).2.store ns X k v := by
  obtain ⟨cm, hcm, hval⟩ := hholds
  rcases reconcileConfigMap_store env ns T w with ⟨h, -⟩ | ⟨habs, h⟩ | ⟨cm0, hfound, h⟩
  · exact ⟨cm, by rw [h, hcm], hval⟩
  · have hne : ¬ (ns = ns ∧ T.Name = X) := by
      rintro ⟨-, rfl⟩
      rw [habs] at hcm
      exact Option.noConfusion hcm
    exact ⟨cm, by rw [h, if_neg hne, hcm], hval⟩
  · by_cases hk : T.Name = X
    · subst hk
      rw [hcm] at hfound
      simp only [Option.some.injEq] at hfound
      subst hfound
      refine ⟨mergedConfigMap cm T, by rw [h, if_pos ⟨rfl, rfl⟩], ?_⟩
      rw [mergedConfigMap_value]
      exact get_applyUpdates_preserved _ _ _ _ hval (hT rfl)
    · have hne : ¬ (ns = ns ∧ T.Name = X) := fun hh => hk hh.2
      exact ⟨cm, by rw [h, if_neg hne, hcm], hval⟩

theorem reconcileConfigMaps_preserve (env : Env) (ns : String) (targets : List ConfigMapSpec)
    (w : World) (X k v : String) (hholds : Holds w.store ns X k v)
    (hT : ∀ T ∈ targets, T.Name = X → ∀ u ∈ T.Updates, u.Key = k → u.NewValue = v) :
    Holds (reconcileConfigMaps env ns targets w).2.store ns X k v := by
  induction targets generalizing w with
  | nil => exact hholds
  | cons T rest ih =>
    have hstep := reconcileConfigMap_preserve env ns T w X k v hholds
      (hT T (List.mem_cons_self _ _))
    rcases reconcileConfigMaps_cons env ns T rest w with ⟨err, -, hrun⟩ | ⟨-, hrun⟩
    · rw [hrun]
      exact hstep
    · rw [hrun]
      exact ih _ hstep (fun T' hT' => hT T' (List.mem_cons_of_mem _ hT'))

/-- After a pass of the loop that returns no error, an update that no later
update of the same ConfigMap name and key contradicts holds in the store. -/
theorem reconcileConfigMaps_establish (env : Env) (ns : String)
    (pre : List ConfigMapSpec) (T : ConfigMapSpec) (post : List ConfigMapSpec) (w : World)
    (hok : (reconcileConfigMaps env ns (pre ++ T :: post) w).1 = none)
    (upre : List ConfigMapUpdate) (u : ConfigMapUpdate) (upost : List ConfigMapUpdate)
    (hT : T.Updates = upre ++ u :: upost)
    (hlater : ∀ u' ∈ upost, u'.Key = u.Key → u'.NewValue = u.NewValue)
    (hpost : ∀ T' ∈ post, T'.Name = T.Name →
      ∀ u' ∈ T'.Updates, u'.Key = u.Key → u'.NewValue = u.NewValue) :
    Holds (reconcileConfigMaps env ns (pre ++ T :: post) w).2.store ns T.Name u.Key
      u.NewValue := by
  induction pre generalizing w with
  | nil =>
    simp only [List.nil_append] at hok ⊢
    rcases reconcileConfigMaps_cons env ns T post w with ⟨err, -, hrun⟩ | ⟨hstep, hrun⟩
    · rw [hrun] at hok
      exact Option.noConfusion hok
    · rw [hrun]
      exact reconcileConfigMaps_preserve env ns post _ _ _ _
        (reconcileConfigMap_establish env ns T w hstep upre u upost hT hlater) hpost
  | cons P pre ih =>
    simp only [List.cons_append] at hok ⊢
    rcases reconcileConfigMaps_cons env ns P (pre ++ T :: post) w with
      ⟨err, -, hrun⟩ | ⟨-, hrun⟩
    · rw [hrun] at hok
      exact Option.noConfusion hok
    · rw [hrun] at hok ⊢
      exact ih _ hok

theorem reconcileConfigMaps_exists (env : Env) (ns : String) (targets : List ConfigMapSpec)
    (w : World) (hok : (reconcileConfigMaps env ns targets w).1 = none)
    (T : ConfigMapSpec) (hT : T ∈ targets) :
    ∃ cm, (reconcileConfigMaps env ns targets w).2.store.findConfigMap ns T.Name = some cm := by
  induction targets generalizing w with
  | nil => simp at hT
  | cons P rest ih =>
    rcases reconcileConfigMaps_cons env ns P rest w with ⟨err, -, hrun⟩ | ⟨hstep, hrun⟩
    · rw [hrun] at hok
      exact Option.noConfusion hok
    · rw [hrun] at hok ⊢
      rcases List.mem_cons.1 hT with rfl | hT
      · obtain ⟨cm1, -, h1, -⟩ := reconcileConfigMap_post env ns T w hstep
        obtain ⟨cm2, h2, -⟩ := reconcileConfigMaps_merges env ns rest _ ns T.Name cm1 h1
        exact ⟨cm2, h2⟩
      · exact ih _ hok hT

/-- After a pass of the loop that returns no error over consistent targets,
every target is converged. -/
theorem reconcileConfigMaps_converged (env : Env) (ns : String) (targets : List ConfigMapSpec)
    (w : World) (hok : (reconcileConfigMaps env ns targets w).1 = none)
    (hcons : TargetsConsistent targets) (T : ConfigMapSpec) (hT : T ∈ targets) :
    Converged (reconcileConfigMaps env ns targets w).2.store ns T := by
  obtain ⟨cm, hcm⟩ := reconcileConfigMaps_exists env ns targets w hok T hT
  refine ⟨cm, hcm, fun u hu => ?_⟩
  obtain ⟨pre, post, rfl⟩ := List.append_of_mem hT
  obtain ⟨upre, upost, hupd⟩ := List.append_of_mem hu
  obtain ⟨cm', hcm', hval⟩ := reconcileConfigMaps_establish env ns pre T post w hok
    upre u upost hupd
    (fun u' hu' hk => hcons T hT T hT rfl u' (by rw [hupd]; simp [hu']) u hu hk)
    (fun T' hT' hname u' hu' hk =>
      hcons T' (by simp [hT']) T hT hname u' hu' u hu hk)
  rw [hcm] at hcm'
  simp only [Option.some.injEq] at hcm'
  rw [hcm']
  exact hval

/-! ## A second pass over a converged store -/

theorem reconcileConfigMap_managers (env : Env) (ns : String) (T : ConfigMapSpec) (w : World) :
    (reconcileConfigMap env ns T w).2.store.managers = w.store.managers := by
  cases hf : env.fault w.trace.length with
  | some code => rw [reconcileConfigMap_fault env ns T w code hf]
  | none =>
    cases hfind : w.store.findConfigMap ns T.Name with
    | none =>
      rw [reconcileConfigMap_absent env ns T w hf hfind]
      cases hc : env.fault (w.trace.length + 1) with
      | some code => rfl
      | none =>
        simp only []
        obtain ⟨_, -, -, -, h⟩ := restartDeployments_frame env ns T.Name
          ⟨w.store.withCreated (createdConfigMap ns T),
            w.trace ++ [(.getConfigMap ns T.Name, some .notFound),
              (.createConfigMap (createdConfigMap ns T), none)]⟩
        rw [h]
        rfl
    | some cm =>
      rw [reconcileConfigMap_found env ns T w cm hf hfind]
      by_cases hch : (mergeUpdates (cm.Data.getD []) T.Updates).2 = true
      · rw [if_pos hch]
        cases hc : env.fault (w.trace.length + 1) with
        | some code => rfl
        | none =>
          simp only []
          obtain ⟨_, -, -, -, h⟩ := restartDeployments_frame env ns T.Name
            ⟨w.store.withUpdated (mergedConfigMap cm T),
              w.trace ++ [(.getConfigMap ns T.Name, none),
                (.updateConfigMap (mergedConfigMap cm T), none)]⟩
          rw [h]
          rfl
      · rw [if_neg hch]

theorem reconcileConfigMaps_managers (env : Env) (ns : String) (targets : List ConfigMapSpec)
    (w : World) : (reconcileConfigMaps env ns targets w).2.store.managers = w.store.managers := by
  induction targets generalizing w with
  | nil => rfl
  | cons T rest ih =>
    rcases reconcileConfigMaps_cons env ns T rest w with ⟨err, -, hrun⟩ | ⟨-, hrun⟩
    · rw [hrun]
      exact reconcileConfigMap_managers env ns T w
    · rw [hrun, ih, reconcileConfigMap_managers]

theorem Reconcile_managers (env : Env) (req : Request) (w : World) :
    (Reconcile env req w).2.store.managers = w.store.managers := by
  rcases Reconcile_cases env req w with ⟨code, -, hrun⟩ | ⟨-, -, hrun⟩ | ⟨m, -, -, hrun⟩
  · rw [hrun]
  · rw [hrun]
  · rw [hrun, reconcileConfigMaps_managers]

theorem Converged.flag (s : Store) (ns : String) (T : ConfigMapSpec) (h : Converged s ns T) :
    ∃ cm, s.findConfigMap ns T.Name = some cm ∧
      (mergeUpdates (cm.Data.getD []) T.Updates).2 = false := by
  obtain ⟨cm, hcm, hsat⟩ := h
  exact ⟨cm, hcm, (mergeUpdates_snd_false _ _).2 hsat⟩

/-- Over a store in which every target is converged, and without faults, the
loop only reads the ConfigMaps. -/
theorem reconcileConfigMaps_noop (env : Env) (ns : String) (targets : List ConfigMapSpec)
    (w : World) (hquiet : ∀ i, env.fault i = none)
    (hconv : ∀ T ∈ targets, Converged w.store ns T) :
    reconcileConfigMaps env ns targets w
      = (none, ⟨w.store, w.trace ++ targets.map (fun T => (.getConfigMap ns T.Name, none))⟩) := by
  induction targets generalizing w with
  | nil => simp [reconcileConfigMaps]
  | cons T rest ih =>
    obtain ⟨cm, hcm, hflag⟩ := Converged.flag _ _ _ (hconv T (List.mem_cons_self _ _))
    have hstep := reconcileConfigMap_found env ns T w cm (hquiet _) hcm
    rw [hflag] at hstep
    simp only [Bool.false_eq_true, if_false] at hstep
    rw [reconcileConfigMaps, hstep]
    simp only []
    have hrest := ih (World.mk w.store (w.trace ++ [(Call.getConfigMap ns T.Name, none)]))
      (fun T' hT' => hconv T' (List.mem_cons_of_mem _ hT'))
    rw [hrest]
    simp

/-! ## Claims on the whole of `Reconcile` -/

/-- C2: `Reconcile` is merge-only. Whatever the store, the request and the
failures, every ConfigMap present before the pass is present after it, every
key of its data is still a key of its data, and every key that is not the
key of an update of a target naming this ConfigMap (in the namespace of the
request) keeps its value. -/
theorem merge_only (env : Env) (req : Request) (w : World) (ns name : String) (cm : ConfigMap)
    (hcm : w.store.findConfigMap ns name = some cm) :
    ∃ cm', (Reconcile env req w).2.store.findConfigMap ns name = some cm' ∧
      (∀ k v, cm.value k = some v → ∃ v', cm'.value k = some v') ∧
      (∀ k, (∀ m, w.store.findManager req.Namespace req.Name = some m →
            ∀ T ∈ m.Spec.ConfigMaps, ns = req.Namespace → T.Name = name →
              ∀ u ∈ T.Updates, u.Key ≠ k) →
        cm'.value k = cm.value k) := by
  rcases Reconcile_cases env req w with ⟨code, -, hrun⟩ | ⟨-, -, hrun⟩ | ⟨m, -, hm, hrun⟩
  · rw [hrun]
    exact ⟨cm, hcm, fun k v hv => ⟨v, hv⟩, fun _ _ => rfl⟩
  · rw [hrun]
    exact ⟨cm, hcm, fun k v hv => ⟨v, hv⟩, fun _ _ => rfl⟩
  · rw [hrun]
    obtain ⟨cm', h1, h2, h3⟩ := reconcileConfigMaps_merges env req.Namespace
      m.Spec.ConfigMaps ⟨w.store, w.trace ++ [(.getManager req.Namespace req.Name, none)]⟩
      ns name cm hcm
    exact ⟨cm', h1, h2, fun k hk => h3 k (hk m hm)⟩

/-- C2 at the instance of the specification: observed `a ↦ 1, b ↦ 2` and the
update `a := 9` give `a ↦ 9, b ↦ 2`. -/
theorem merge_only_witness :
    (Reconcile quietEnv testRequest
        (testWorld [⟨"test-configmap", [⟨"a", "9"⟩]⟩]
          [⟨"test-configmap", "default", some [("a", "1"), ("b", "2")]⟩] [])).2.store.configMaps
      = [⟨"test-configmap", "default", some [("a", "9"), ("b", "2")]⟩] ∧
    ∃ cm', (Reconcile quietEnv testRequest
        (testWorld [⟨"test-configmap", [⟨"a", "9"⟩]⟩]
          [⟨"test-configmap", "default", some [("a", "1"), ("b", "2")]⟩]
          [])).2.store.findConfigMap "default" "test-configmap" = some cm' ∧
      (∀ k v, ConfigMap.value ⟨"test-configmap", "default", some [("a", "1"), ("b", "2")]⟩ k
          = some v → ∃ v', cm'.value k = some v') ∧
      (∀ k, (∀ m, (testWorld [⟨"test-configmap", [⟨"a", "9"⟩]⟩]
              [⟨"test-configmap", "default", some [("a", "1"), ("b", "2")]⟩]
              []).store.findManager testRequest.Namespace testRequest.Name = some m →
            ∀ T ∈ m.Spec.ConfigMaps, "default" = testRequest.Namespace →
              T.Name = "test-configmap" → ∀ u ∈ T.Updates, u.Key ≠ k) →
        cm'.value k
          = ConfigMap.value ⟨"test-configmap", "default", some [("a", "1"), ("b", "2")]⟩ k) :=
  ⟨by decide, merge_only quietEnv testRequest _ "default" "test-configmap" _ rfl⟩

/-- C1 as stated fails: with the updates `a := 1`, `a := 2` of one target,
`Reconcile` returns no error and the ConfigMap holds `a ↦ 2`, not the value
of the update `a := 1`. -/
theorem convergence_counterexample :
    (Reconcile quietEnv testRequest
        (testWorld [⟨"test-configmap", [⟨"a", "1"⟩, ⟨"a", "2"⟩]⟩] [] [])).1 = none ∧
    (⟨"a", "1"⟩ : ConfigMapUpdate) ∈ [(⟨"a", "1"⟩ : ConfigMapUpdate), ⟨"a", "2"⟩] ∧
    (Reconcile quietEnv testRequest
        (testWorld [⟨"test-configmap", [⟨"a", "1"⟩, ⟨"a", "2"⟩]⟩] [] [])).2.store.findConfigMap
          "default" "test-configmap"
      = some ⟨"test-configmap", "default", some [("a", "2")]⟩ ∧
    ConfigMap.value ⟨"test-configmap", "default", some [("a", "2")]⟩ "a" ≠ some "1" := by
  decide

/-- C1, amended: when `Reconcile` finds the manager object and returns no
error, then for every target and every update `k := v` of its list that is
not followed, later in that list or in a later target of the same name, by
an update of `k` with another value, the ConfigMap of the target's name in
the namespace of the request exists in the resulting store and its data has
`v` at `k`. -/
theorem convergence (env : Env) (req : Request) (w : World) (m : ConfigMapManager)
    (hm : w.store.findManager req.Namespace req.Name = some m)
    (hok : (Reconcile env req w).1 = none)
    (pre : List ConfigMapSpec) (T : ConfigMapSpec) (post : List ConfigMapSpec)
    (hT : m.Spec.ConfigMaps = pre ++ T :: post)
    (upre : List ConfigMapUpdate) (u : ConfigMapUpdate) (upost : List ConfigMapUpdate)
    (hu : T.Updates = upre ++ u :: upost)
    (hlater : ∀ u' ∈ upost, u'.Key = u.Key → u'.NewValue = u.NewValue)
    (hpost : ∀ T' ∈ post, T'.Name = T.Name →
      ∀ u' ∈ T'.Updates, u'.Key = u.Key → u'.NewValue = u.NewValue) :
    ∃ cm, (Reconcile env req w).2.store.findConfigMap req.Namespace T.Name = some cm ∧
      cm.value u.Key = some u.NewValue := by
  rcases Reconcile_cases env req w with ⟨code, -, hrun⟩ | ⟨-, hnone, -⟩ | ⟨m', -, hm', hrun⟩
  · rw [hrun] at hok
    exact Option.noConfusion hok
  · rw [hnone] at hm
    exact Option.noConfusion hm
  · rw [hm] at hm'
    simp only [Option.some.injEq] at hm'
    subst hm'
    rw [hrun] at hok ⊢
    rw [hT] at hok ⊢
    exact reconcileConfigMaps_establish env req.Namespace pre T post _ hok upre u upost hu
      hlater hpost

/-- C1 (amended) at the instance of `TestReconcileUpdateConfigMap`. -/
theorem convergence_witness :
    ∃ cm, (Reconcile quietEnv testRequest
        (testWorld [⟨"test-configmap", [⟨"example-key", "new-value"⟩]⟩]
          [⟨"test-configmap", "default", some [("example-key", "old-value")]⟩]
          [])).2.store.findConfigMap "default" "test-configmap" = some cm ∧
      cm.value "example-key" = some "new-value" :=
  convergence quietEnv testRequest
    (testWorld [⟨"test-configmap", [⟨"example-key", "new-value"⟩]⟩]
      [⟨"test-configmap", "default", some [("example-key", "old-value")]⟩] [])
    (testManager [⟨"test-configmap", [⟨"example-key", "new-value"⟩]⟩]) rfl (by decide)
    [] ⟨"test-configmap", [⟨"example-key", "new-value"⟩]⟩ [] rfl
    [] ⟨"example-key", "new-value"⟩ [] rfl (by simp) (by simp)

/-- After a run of `Reconcile` that returns no error over consistent
targets, every target of the manager object is converged. -/
theorem Reconcile_converged (env : Env) (req : Request) (w : World) (m : ConfigMapManager)
    (hm : w.store.findManager req.Namespace req.Name = some m)
    (hcons : TargetsConsistent m.Spec.ConfigMaps)
    (hok : (Reconcile env req w).1 = none) (T : ConfigMapSpec) (hT : T ∈ m.Spec.ConfigMaps) :
    Converged (Reconcile env req w).2.store req.Namespace T := by
  rcases Reconcile_cases env req w with ⟨code, -, hrun⟩ | ⟨-, hnone, -⟩ | ⟨m', -, hm', hrun⟩
  · rw [hrun] at hok
    exact Option.noConfusion hok
  · rw [hnone] at hm
    exact Option.noConfusion hm
  · rw [hm] at hm'
    simp only [Option.some.injEq] at hm'
    subst hm'
    rw [hrun] at hok ⊢
    exact reconcileConfigMaps_converged env req.Namespace _ _ hok hcons T hT

/-- C3 as stated fails: with the updates `a := 1`, `a := 2` of one target
and a Deployment that loads the ConfigMap, a second run right after the first
finds `a ↦ 2`, sets `updated` on `a := 1`, and so issues an update of the
ConfigMap and of the Deployment. -/
theorem idempotence_counterexample :
    (Reconcile quietEnv testRequest
        (testWorld [⟨"test-configmap", [⟨"a", "1"⟩, ⟨"a", "2"⟩]⟩] []
          [⟨"test-deployment", "default", none, [],
            [⟨"test-container", [⟨some ⟨"test-configmap"⟩⟩]⟩]⟩])).1 = none ∧
    ((Reconcile quietEnv testRequest
        (Reconcile quietEnv testRequest
          (testWorld [⟨"test-configmap", [⟨"a", "1"⟩, ⟨"a", "2"⟩]⟩] []
            [⟨"test-deployment", "default", none, [],
              [⟨"test-container", [⟨some ⟨"test-configmap"⟩⟩]⟩]⟩])).2).2.trace.drop 5).map
        (fun e => e.1)
      = [.getManager "default" "test-configmapmanager",
         .getConfigMap "default" "test-configmap",
         .updateConfigMap ⟨"test-configmap", "default", some [("a", "2")]⟩,
         .listDeployments "default",
         .updateDeployment ⟨"test-deployment", "default",
            some [("configmapmanager/restartedAt", "2024-01-01T00:00:00Z")], [],
            [⟨"test-container", [⟨some ⟨"test-configmap"⟩⟩]⟩]⟩] := by
  decide

/-- C3, amended: when no two updates of the manager object, for the same
ConfigMap name and the same key, carry different values, a run of
`Reconcile` that returns no error, followed with no other writer in between
by a run in which no call fails, leaves every target with `updated` false in
the second run: the second run returns no error, leaves the store as it is,
and issues reads of the manager object and of the ConfigMaps only. -/
theorem idempotence (env1 env2 : Env) (req : Request) (w : World)
    (hcons : ∀ m, w.store.findManager req.Namespace req.Name = some m →
      TargetsConsistent m.Spec.ConfigMaps)
    (hfirst : (Reconcile env1 req w).1 = none) (hquiet : ∀ i, env2.fault i = none) :
    (Reconcile env2 req (Reconcile env1 req w).2).1 = none ∧
    (Reconcile env2 req (Reconcile env1 req w).2).2.store = (Reconcile env1 req w).2.store ∧
    (∃ new, (Reconcile env2 req (Reconcile env1 req w).2).2.trace
        = (Reconcile env1 req w).2.trace ++ new ∧ ∀ e ∈ new, e.1.isGet = true) ∧
    (∀ m, w.store.findManager req.Namespace req.Name = some m → ∀ T ∈ m.Spec.ConfigMaps,
      ∃ cm, (Reconcile env1 req w).2.store.findConfigMap req.Namespace T.Name = some cm ∧
        (mergeUpdates (cm.Data.getD []) T.Updates).2 = false) := by
  have hconv : ∀ m, w.store.findManager req.Namespace req.Name = some m →
      ∀ T ∈ m.Spec.ConfigMaps, Converged (Reconcile env1 req w).2.store req.Namespace T :=
    fun m hm T hT => Reconcile_converged env1 req w m hm (hcons m hm) hfirst T hT
  have hmgr : (Reconcile env1 req w).2.store.findManager req.Namespace req.Name
      = w.store.findManager req.Namespace req.Name := by
    simp only [Store.findManager, Reconcile_managers]
  have hflags : ∀ m, w.store.findManager req.Namespace req.Name = some m →
      ∀ T ∈ m.Spec.ConfigMaps,
      ∃ cm, (Reconcile env1 req w).2.store.findConfigMap req.Namespace T.Name = some cm ∧
        (mergeUpdates (cm.Data.getD []) T.Updates).2 = false :=
    fun m hm T hT => Converged.flag _ _ _ (hconv m hm T hT)
  rcases Reconcile_cases env2 req (Reconcile env1 req w).2 with
    ⟨code, hf, -⟩ | ⟨-, -, hrun⟩ | ⟨m, -, hm, hrun⟩
  · rw [hquiet] at hf
    exact Option.noConfusion hf
  · rw [hrun]
    exact ⟨rfl, rfl, ⟨_, rfl, by simp [Call.isGet]⟩, hflags⟩
  · rw [hmgr] at hm
    rw [hrun, reconcileConfigMaps_noop env2 req.Namespace m.Spec.ConfigMaps
      (World.mk (Reconcile env1 req w).2.store
        ((Reconcile env1 req w).2.trace ++ [(Call.getManager req.Namespace req.Name, none)]))
      hquiet (hconv m hm)]
    refine ⟨rfl, rfl, ⟨(Call.getManager req.Namespace req.Name, none)
      :: m.Spec.ConfigMaps.map (fun T => (Call.getConfigMap req.Namespace T.Name, none)),
      by simp, ?_⟩, hflags⟩
    intro e he
    rcases List.mem_cons.1 he with rfl | he
    · rfl
    · obtain ⟨T, -, rfl⟩ := List.mem_map.1 he
      rfl

/-- C3 (amended) at the instance of `TestReconcileCreateConfigMap`, run twice. -/
theorem idempotence_witness :
    (Reconcile quietEnv testRequest (Reconcile quietEnv testRequest
        (testWorld [⟨"test-configmap", [⟨"example-key", "example-value"⟩]⟩] [] [])).2).2.store
      = (Reconcile quietEnv testRequest
        (testWorld [⟨"test-configmap", [⟨"example-key", "example-value"⟩]⟩] [] [])).2.store :=
  (idempotence quietEnv quietEnv testRequest
    (testWorld [⟨"test-configmap", [⟨"example-key", "example-value"⟩]⟩] [] [])
    (by
      intro m hm
      have hm' : m = testManager [⟨"test-configmap", [⟨"example-key", "example-value"⟩]⟩] := by
        have : some m = some (testManager [⟨"test-configmap",
            [⟨"example-key", "example-value"⟩]⟩]) := by rw [← hm]; rfl
        exact Option.some.inj this
      subst hm'
      intro T hT T' hT' _ u hu u' hu' _
      simp only [testManager, List.mem_singleton] at hT hT'
      subst hT hT'
      simp only [List.mem_singleton] at hu hu'
      rw [hu, hu'])
    (by decide) (fun _ => rfl)).2.1

/-! ## `restartDeployments`: which Deployments it updates -/

theorem usesConfigMap_iff (d : Deployment) (X : String) :
    usesConfigMap d X = true ↔ References d X := by
  have hv : ∀ volume : Volume,
      (match volume.ConfigMap with
        | some src => decide (src.Name = X)
        | none => false) = true ↔ volume.ConfigMap = some ⟨X⟩ := by
    intro volume
    cases hsrc : volume.ConfigMap with
    | none => simp
    | some src =>
      cases src with
      | mk n => simp
  have he : ∀ envFrom : EnvFromSource,
      (match envFrom.ConfigMapRef with
        | some ref => decide (ref.Name = X)
        | none => false) = true ↔ envFrom.ConfigMapRef = some ⟨X⟩ := by
    intro envFrom
    cases href : envFrom.ConfigMapRef with
    | none => simp
    | some ref =>
      cases ref with
      | mk n => simp
  unfold usesConfigMap References
  simp only [Bool.if_true_left, Bool.or_eq_true, List.any_eq_true, hv, he, decide_eq_true_eq]

theorem usesConfigMap_setRestartedAt (d : Deployment) (t X : String) :
    usesConfigMap (setRestartedAt d t) X = usesConfigMap d X := rfl

theorem usesConfigMap_of_setRestartedAt_eq (d d' : Deployment) (t t' X : String)
    (h : setRestartedAt d t = setRestartedAt d' t') :
    usesConfigMap d X = usesConfigMap d' X := by
  rw [← usesConfigMap_setRestartedAt d t X, h, usesConfigMap_setRestartedAt]

/-- The annotation written by `restartDeployments` reads back as the stamp. -/
theorem setRestartedAt_get (d : Deployment) (t : String) :
    GoMap.get ((setRestartedAt d t).Annotations.getD []) restartedAtKey = some t := by
  simp [setRestartedAt, GoMap.get_set_same]

theorem Store.updateDeployment_ok (s : Store) (d : Deployment)
    (h : ∃ x ∈ s.deployments, x.key = d.key) :
    s.updateDeployment d = .ok ((), s.withDeployment d) := by
  obtain ⟨x, hx, hk⟩ := h
  simp only [Deployment.key, Prod.mk.injEq] at hk
  unfold Store.updateDeployment Store.findDeployment
  cases hfind : s.deployments.find? (fun y => decide (y.Namespace = d.Namespace ∧ y.Name = d.Name))
    with
  | none =>
    rw [List.find?_eq_none] at hfind
    have := hfind x hx
    simp [hk.1, hk.2] at this
  | some y => rfl

theorem replaceDeployment_keys (ds : List Deployment) (d : Deployment) :
    (replaceDeployment ds d).map Deployment.key = ds.map Deployment.key := by
  unfold replaceDeployment
  rw [List.map_map]
  apply List.map_congr_left
  intro x _
  by_cases hx : x.Namespace = d.Namespace ∧ x.Name = d.Name
  · simp [hx, Deployment.key]
  · simp [hx]

theorem mem_replaceDeployment_of_ne (ds : List Deployment) (d x : Deployment)
    (hx : x ∈ ds) (hne : x.key ≠ d.key) : x ∈ replaceDeployment ds d := by
  unfold replaceDeployment
  refine List.mem_map.2 ⟨x, hx, ?_⟩
  have : ¬ (x.Namespace = d.Namespace ∧ x.Name = d.Name) := by
    rintro ⟨h1, h2⟩
    exact hne (by simp [Deployment.key, h1, h2])
  simp [this]

theorem mem_replaceDeployment_self (ds : List Deployment) (d : Deployment)
    (h : ∃ x ∈ ds, x.key = d.key) : d ∈ replaceDeployment ds d := by
  obtain ⟨x, hx, hk⟩ := h
  simp only [Deployment.key, Prod.mk.injEq] at hk
  unfold replaceDeployment
  refine List.mem_map.2 ⟨x, hx, ?_⟩
  simp [hk.1, hk.2]

theorem key_mem_of_keys_eq (ds ds' : List Deployment)
    (h : ds'.map Deployment.key = ds.map Deployment.key) (k : String × String)
    (hk : ∃ x ∈ ds, x.key = k) : ∃ x ∈ ds', x.key = k := by
  have : k ∈ ds.map Deployment.key := List.mem_map.2 hk
  rw [← h] at this
  exact List.mem_map.1 this

theorem restartLoop_cons_skip (env : Env) (X : String) (d : Deployment)
    (items : List Deployment) (w : World) (hu : usesConfigMap d X = false) :
    restartLoop env X (d :: items) w = restartLoop env X items w := by
  rw [restartLoop]
  simp [hu]

theorem restartLoop_cons_uses (env : Env) (X : String) (d : Deployment)
    (items : List Deployment) (w : World) (hu : usesConfigMap d X = true)
    (hf : env.fault w.trace.length = none)
    (hex : ∃ x ∈ w.store.deployments, x.key = d.key) :
    restartLoop env X (d :: items) w
      = restartLoop env X items
          (World.mk
            (w.store.withDeployment (setRestartedAt d (env.now w.trace.length)))
            (w.trace ++
              [(Call.updateDeployment (setRestartedAt d (env.now w.trace.length)), none)])) := by
  rw [restartLoop]
  simp only [hu, if_true]
  unfold updateDeployment
  rw [call_ok env _ _ w () _ hf
    (Store.updateDeployment_ok w.store (setRestartedAt d (env.now w.trace.length)) hex)]

/-- The loop of `restartDeployments` when no call fails: it returns no
error, it issues one update for each item that uses the ConfigMap and no
other call, and it replaces those Deployments in the store. -/
theorem restartLoop_quiet (env : Env) (X : String) (hquiet : ∀ i, env.fault i = none)
    (items : List Deployment) (w : World)
    (hsub : ∀ d ∈ items, ∃ x ∈ w.store.deployments, x.key = d.key) :
    ∃ new,
      (restartLoop env X items w).1 = none ∧
      (restartLoop env X items w).2.trace = w.trace ++ new ∧
      (∀ e ∈ new, ∃ d ∈ items, ∃ i, usesConfigMap d X = true ∧
        e = (Call.updateDeployment (setRestartedAt d (env.now i)), none)) ∧
      (∀ d ∈ items, usesConfigMap d X = true →
        ∃ i, (Call.updateDeployment (setRestartedAt d (env.now i)), none) ∈ new) ∧
      (restartLoop env X items w).2.store.deployments.map Deployment.key
        = w.store.deployments.map Deployment.key ∧
      (∀ x ∈ w.store.deployments,
        (∀ d ∈ items, usesConfigMap d X = true → d.key ≠ x.key) →
        x ∈ (restartLoop env X items w).2.store.deployments) ∧
      ((items.map Deployment.key).Nodup → ∀ d ∈ items, usesConfigMap d X = true →
        ∃ i, setRestartedAt d (env.now i) ∈ (restartLoop env X items w).2.store.deployments) := by
  induction items generalizing w with
  | nil =>
    refine ⟨[], rfl, by simp [restartLoop], ?_, ?_, rfl, fun x hx _ => hx, ?_⟩
    · intro e he; simp at he
    · intro d hd; simp at hd
    · intro _ d hd; simp at hd
  | cons d items ih =>
    by_cases hu : usesConfigMap d X = true
    · have hex := hsub d (List.mem_cons_self _ _)
      rw [restartLoop_cons_uses env X d items w hu (hquiet _) hex]
      have hsub1 : ∀ d0 ∈ items, ∃ x ∈ replaceDeployment w.store.deployments
          (setRestartedAt d (env.now w.trace.length)), x.key = d0.key := fun d0 hd0 =>
        key_mem_of_keys_eq _ _ (replaceDeployment_keys _ _) _
          (hsub d0 (List.mem_cons_of_mem _ hd0))
      obtain ⟨new, h1, h2, h3, h4, h5, h6, h7⟩ := ih
        (World.mk
          (w.store.withDeployment (setRestartedAt d (env.now w.trace.length)))
          (w.trace ++
            [(Call.updateDeployment (setRestartedAt d (env.now w.trace.length)), none)])) hsub1
      refine ⟨(Call.updateDeployment (setRestartedAt d (env.now w.trace.length)), none) :: new,
        h1, ?_, ?_, ?_, ?_, ?_, ?_⟩
      · rw [h2]; simp
      · intro e he
        rcases List.mem_cons.1 he with rfl | he
        · exact ⟨d, List.mem_cons_self _ _, w.trace.length, hu, rfl⟩
        · obtain ⟨d0, hd0, i, hi⟩ := h3 e he
          exact ⟨d0, List.mem_cons_of_mem _ hd0, i, hi⟩
      · intro d0 hd0 hu0
        rcases List.mem_cons.1 hd0 with rfl | hd0
        · exact ⟨w.trace.length, List.mem_cons_self _ _⟩
        · obtain ⟨i, hi⟩ := h4 d0 hd0 hu0
          exact ⟨i, List.mem_cons_of_mem _ hi⟩
      · rw [h5]
        exact replaceDeployment_keys _ _
      · intro x hx hne
        apply h6 x
        · exact mem_replaceDeployment_of_ne _ _ _ hx
            (fun hk => hne d (List.mem_cons_self _ _) hu hk.symm)
        · exact fun d0 hd0 hu0 => hne d0 (List.mem_cons_of_mem _ hd0) hu0
      · intro hnd d0 hd0 hu0
        rw [List.map_cons, List.nodup_cons] at hnd
        rcases List.mem_cons.1 hd0 with rfl | hd0
        · refine ⟨w.trace.length, h6 _ (mem_replaceDeployment_self _ _ hex) ?_⟩
          intro d1 hd1 _ hk
          exact hnd.1 (List.mem_map.2 ⟨d1, hd1, hk⟩)
        · exact h7 hnd.2 d0 hd0 hu0
    · have hu' : usesConfigMap d X = false := by simpa using hu
      rw [restartLoop_cons_skip env X d items w hu']
      obtain ⟨new, h1, h2, h3, h4, h5, h6, h7⟩ := ih w
        (fun d0 hd0 => hsub d0 (List.mem_cons_of_mem _ hd0))
      refine ⟨new, h1, h2, ?_, ?_, h5, ?_, ?_⟩
      · intro e he
        obtain ⟨d0, hd0, i, hi⟩ := h3 e he
        exact ⟨d0, List.mem_cons_of_mem _ hd0, i, hi⟩
      · intro d0 hd0 hu0
        rcases List.mem_cons.1 hd0 with rfl | hd0
        · rw [hu'] at hu0
          exact absurd hu0 Bool.false_ne_true
        · exact h4 d0 hd0 hu0
      · exact fun x hx hne => h6 x hx
          (fun d0 hd0 hu0 => hne d0 (List.mem_cons_of_mem _ hd0) hu0)
      · intro hnd d0 hd0 hu0
        rw [List.map_cons, List.nodup_cons] at hnd
        rcases List.mem_cons.1 hd0 with rfl | hd0
        · rw [hu'] at hu0
          exact absurd hu0 Bool.false_ne_true
        · exact h7 hnd.2 d0 hd0 hu0

theorem restartDeployments_quiet_eq (env : Env) (ns X : String) (w : World)
    (hquiet : ∀ i, env.fault i = none) :
    restartDeployments env ns X w
      = restartLoop env X (w.store.deployments.filter (fun d => decide (d.Namespace = ns)))
          (World.mk w.store (w.trace ++ [(Call.listDeployments ns, none)])) := by
  unfold restartDeployments listDeployments
  rw [call_ok env _ _ w (w.store.deployments.filter (fun d => decide (d.Namespace = ns)))
    w.store (hquiet _) rfl]

/-- C6: notification matching. When no call fails, `restartDeployments`
returns no error; after listing the Deployments of the namespace it issues
updates only, each of a listed Deployment that references ConfigMap `X` (by
a volume or by an `EnvFrom` entry of a container) with the annotation
`configmapmanager/restartedAt` set; a Deployment of the store is updated so
if and only if it is in the namespace and references `X`. In a store whose
Deployments have distinct namespaced names, the Deployments that reference
`X` in the namespace are replaced by their annotated copy and every other
Deployment, one that references only another ConfigMap included, is left as
it was. -/
theorem notification_matching (env : Env) (ns X : String) (w : World)
    (hquiet : ∀ i, env.fault i = none) :
    (restartDeployments env ns X w).1 = none ∧
    (∃ new, (restartDeployments env ns X w).2.trace
        = w.trace ++ (Call.listDeployments ns, none) :: new ∧
      (∀ e ∈ new, ∃ d ∈ w.store.deployments, ∃ i, d.Namespace = ns ∧ References d X ∧
        e = (Call.updateDeployment (setRestartedAt d (env.now i)), none)) ∧
      (∀ d ∈ w.store.deployments, (d.Namespace = ns ∧ References d X) ↔
        ∃ i, (Call.updateDeployment (setRestartedAt d (env.now i)), none) ∈ new)) ∧
    (∀ d t, GoMap.get ((setRestartedAt d t).Annotations.getD []) restartedAtKey = some t) ∧
    ((w.store.deployments.map Deployment.key).Nodup →
      (restartDeployments env ns X w).2.store.deployments.map Deployment.key
        = w.store.deployments.map Deployment.key ∧
      ∀ d ∈ w.store.deployments,
        (d.Namespace = ns ∧ References d X →
          ∃ i, setRestartedAt d (env.now i)
            ∈ (restartDeployments env ns X w).2.store.deployments) ∧
        (¬ (d.Namespace = ns ∧ References d X) →
          d ∈ (restartDeployments env ns X w).2.store.deployments)) := by
  rw [restartDeployments_quiet_eq env ns X w hquiet]
  have hmem : ∀ d, d ∈ w.store.deployments.filter (fun d => decide (d.Namespace = ns)) ↔
      d ∈ w.store.deployments ∧ d.Namespace = ns := by
    intro d
    simp [List.mem_filter]
  obtain ⟨new, h1, h2, h3, h4, h5, h6, h7⟩ := restartLoop_quiet env X hquiet
    (w.store.deployments.filter (fun d => decide (d.Namespace = ns)))
    (World.mk w.store (w.trace ++ [(Call.listDeployments ns, none)]))
    (fun d hd => ⟨d, ((hmem d).1 hd).1, rfl⟩)
  refine ⟨h1, ⟨new, ?_, ?_, ?_⟩, setRestartedAt_get, ?_⟩
  · rw [h2]; simp
  · intro e he
    obtain ⟨d, hd, i, hu, rfl⟩ := h3 e he
    exact ⟨d, ((hmem d).1 hd).1, i, ((hmem d).1 hd).2, (usesConfigMap_iff d X).1 hu, rfl⟩
  · intro d hd
    constructor
    · rintro ⟨hns, href⟩
      exact h4 d ((hmem d).2 ⟨hd, hns⟩) ((usesConfigMap_iff d X).2 href)
    · rintro ⟨i, hi⟩
      obtain ⟨d0, hd0, i0, hu0, heq⟩ := h3 _ hi
      simp only [Prod.mk.injEq, Call.updateDeployment.injEq, and_true] at heq
      have hns : d.Namespace = d0.Namespace := by
        have := congrArg Deployment.Namespace heq
        simpa [setRestartedAt] using this
      refine ⟨by rw [hns]; exact ((hmem d0).1 hd0).2, (usesConfigMap_iff d X).1 ?_⟩
      rw [usesConfigMap_of_setRestartedAt_eq d d0 _ _ X heq, hu0]
  · intro hnd
    refine ⟨h5, fun d hd => ⟨?_, ?_⟩⟩
    · rintro ⟨hns, href⟩
      exact h7 (List.Nodup.sublist ((List.filter_sublist _).map _) hnd) d
        ((hmem d).2 ⟨hd, hns⟩) ((usesConfigMap_iff d X).2 href)
    · intro hnot
      apply h6 d hd
      intro d0 hd0 hu0 hk
      have : d0 = d := List.inj_on_of_nodup_map hnd ((hmem d0).1 hd0).1 hd hk
      subst this
      exact hnot ⟨((hmem d0).1 hd0).2, (usesConfigMap_iff d0 X).1 hu0⟩

/-- C6 at the instance of `TestRestartDeployments`, next to a Deployment
that mounts another ConfigMap: the first is annotated, the second is left
as it was. -/
theorem notification_matching_witness :
    (restartDeployments quietEnv "default" "test-configmap"
        ⟨⟨[], [], [⟨"test-deployment", "default", some [], [],
              [⟨"test-container", [⟨some ⟨"test-configmap"⟩⟩]⟩]⟩,
            ⟨"other-deployment", "default", none, [⟨"config", some ⟨"other-configmap"⟩⟩],
              []⟩]⟩, []⟩).2.store.deployments
      = [⟨"test-deployment", "default",
            some [("configmapmanager/restartedAt", "2024-01-01T00:00:00Z")], [],
            [⟨"test-container", [⟨some ⟨"test-configmap"⟩⟩]⟩]⟩,
          ⟨"other-deployment", "default", none, [⟨"config", some ⟨"other-configmap"⟩⟩], []⟩] ∧
    (restartDeployments quietEnv "default" "test-configmap"
        ⟨⟨[], [], [⟨"test-deployment", "default", some [], [],
              [⟨"test-container", [⟨some ⟨"test-configmap"⟩⟩]⟩]⟩,
            ⟨"other-deployment", "default", none, [⟨"config", some ⟨"other-configmap"⟩⟩],
              []⟩]⟩, []⟩).1 = none ∧
    (restartDeployments quietEnv "default" "test-configmap"
        ⟨⟨[], [], [⟨"test-deployment", "default", some [], [],
              [⟨"test-container", [⟨some ⟨"test-configmap"⟩⟩]⟩]⟩,
            ⟨"other-deployment", "default", none, [⟨"config", some ⟨"other-configmap"⟩⟩],
              []⟩]⟩, []⟩).2.store.deployments.map Deployment.key
      = [("default", "test-deployment"), ("default", "other-deployment")] :=
  ⟨by decide, (notification_matching quietEnv "default" "test-configmap" _ (fun _ => rfl)).1,
    ((notification_matching quietEnv "default" "test-configmap" _ (fun _ => rfl)).2.2.2
      (by decide)).1⟩

/-! ## Failures -/

theorem Store.replay_append (s : Store) (xs ys : List (Call × Option StoreError)) :
    s.replay (xs ++ ys) = (s.replay xs).replay ys := by
  simp [Store.replay, List.foldl_append]

theorem FailFast.trans (env : Env) (w w1 w2 : World) (r : Option StoreError)
    (h1 : FailFast env w none w1) (h2 : FailFast env w1 r w2) : FailFast env w r w2 := by
  obtain ⟨new1, ht1, hs1, ho1, hm1⟩ := h1
  obtain ⟨new2, ht2, hs2, ho2, hm2⟩ := h2
  refine ⟨new1 ++ new2, ?_, ?_, ?_, ?_⟩
  · rw [ht2, ht1, List.append_assoc]
  · rw [hs2, hs1, Store.replay_append]
  · intro i code hi hfault
    by_cases hlt : i < new1.length
    · exact absurd (ho1 i code hlt hfault).2 (by simp)
    · have hle : new1.length ≤ i := Nat.le_of_not_lt hlt
      have hi2 : i - new1.length < new2.length := by
        rw [List.length_append] at hi
        omega
      have hidx : w1.trace.length + (i - new1.length) = w.trace.length + i := by
        rw [ht1, List.length_append]
        omega
      obtain ⟨h, hr⟩ := ho2 (i - new1.length) code hi2 (by rw [hidx]; exact hfault)
      refine ⟨?_, hr⟩
      rw [List.length_append]
      omega
  · cases r with
    | none =>
      intro e he
      rcases List.mem_append.1 he with he | he
      · exact hm1 e he
      · exact hm2 e he
    | some err =>
      obtain ⟨pre, c, hnew, hfail, hpre⟩ := hm2
      refine ⟨new1 ++ pre, c, by rw [hnew, List.append_assoc], hfail, ?_⟩
      intro e he
      rcases List.mem_append.1 he with he | he
      · exact hm1 e he
      · exact hpre e he

theorem FailFast.single_ok (env : Env) (w : World) (c : Call) (s : Store)
    (hf : env.fault w.trace.length = none) (hs : s = w.store.commit c) :
    FailFast env w none ⟨s, w.trace ++ [(c, none)]⟩ := by
  refine ⟨[(c, none)], rfl, by simp [Store.replay, hs], ?_, ?_⟩
  · intro i code hi hfault
    have : i = 0 := by simpa using hi
    subst this
    rw [Nat.add_zero, hf] at hfault
    exact Option.noConfusion hfault
  · intro e he
    rw [List.mem_singleton] at he
    subst he
    cases c <;> rfl

theorem FailFast.single_notFound (env : Env) (w : World) (c : Call)
    (hf : env.fault w.trace.length = none) (hc : failed (c, some .notFound) = false) :
    FailFast env w none ⟨w.store, w.trace ++ [(c, some .notFound)]⟩ := by
  refine ⟨[(c, some .notFound)], rfl, by simp [Store.replay], ?_, ?_⟩
  · intro i code hi hfault
    have : i = 0 := by simpa using hi
    subst this
    rw [Nat.add_zero, hf] at hfault
    exact Option.noConfusion hfault
  · intro e he
    rw [List.mem_singleton] at he
    subst he
    exact hc

theorem FailFast.single_err (env : Env) (w : World) (c : Call) (err : StoreError)
    (hfault : ∀ code, env.fault w.trace.length = some code → err = .fault code)
    (hc : failed (c, some err) = true) :
    FailFast env w (some err) ⟨w.store, w.trace ++ [(c, some err)]⟩ := by
  refine ⟨[(c, some err)], rfl, by simp [Store.replay], ?_, ?_⟩
  · intro i code hi hf
    have : i = 0 := by simpa using hi
    subst this
    rw [Nat.add_zero] at hf
    exact ⟨rfl, by rw [hfault code hf]⟩
  · exact ⟨[], c, rfl, hc, by simp⟩

theorem failed_fault (c : Call) (code : Nat) : failed (c, some (.fault code)) = true := by
  cases c <;> rfl

theorem Store.updateDeployment_commit (s s' : Store) (d : Deployment) (u : Unit)
    (h : s.updateDeployment d = .ok (u, s')) : s' = s.commit (.updateDeployment d) := by
  unfold Store.updateDeployment at h
  cases hd : s.findDeployment d.Namespace d.Name with
  | none => simp [hd] at h
  | some x =>
    simp only [hd, Except.ok.injEq, Prod.mk.injEq] at h
    rw [← h.2]
    rfl

theorem restartLoop_failFast (env : Env) (X : String) (items : List Deployment) (w : World) :
    FailFast env w (restartLoop env X items w).1 (restartLoop env X items w).2 := by
  induction items generalizing w with
  | nil => exact ⟨[], by simp [restartLoop], rfl, by simp, by simp [restartLoop]⟩
  | cons d items ih =>
    rw [restartLoop]
    by_cases hu : usesConfigMap d X = true
    · simp only [hu, if_true]
      unfold updateDeployment
      rcases call_cases env (.updateDeployment (setRestartedAt d (env.now w.trace.length)))
          (fun s => s.updateDeployment (setRestartedAt d (env.now w.trace.length))) w with
        ⟨code, hf, h⟩ | ⟨err, hf, -, h⟩ | ⟨a, s, hf, hs, h⟩
      · rw [h]
        refine FailFast.single_err env w _ _ ?_ (failed_fault _ _)
        intro code' hc
        rw [hf] at hc
        rw [Option.some.inj hc]
      · rw [h]
        refine FailFast.single_err env w _ _ ?_ (by cases err <;> rfl)
        intro code' hc
        rw [hf] at hc
        exact Option.noConfusion hc
      · rw [h]
        exact FailFast.trans env w _ _ _
          (FailFast.single_ok env w _ s hf (Store.updateDeployment_commit _ _ _ _ hs)) (ih _)
    · simp only [hu, if_false]
      exact ih w

theorem restartDeployments_failFast (env : Env) (ns X : String) (w : World) :
    FailFast env w (restartDeployments env ns X w).1 (restartDeployments env ns X w).2 := by
  unfold restartDeployments listDeployments
  rcases call_cases env (.listDeployments ns) (fun s => s.listDeployments ns) w with
    ⟨code, hf, h⟩ | ⟨err, hf, hs, h⟩ | ⟨a, s, hf, hs, h⟩
  · rw [h]
    refine FailFast.single_err env w _ _ ?_ (failed_fault _ _)
    intro code' hc
    rw [hf] at hc
    rw [Option.some.inj hc]
  · simp [Store.listDeployments] at hs
  · rw [h]
    simp only [Store.listDeployments, Except.ok.injEq, Prod.mk.injEq] at hs
    exact FailFast.trans env w _ _ _
      (FailFast.single_ok env w (.listDeployments ns) s hf hs.2.symm)
      (restartLoop_failFast env X a _)

theorem reconcileConfigMap_failFast (env : Env) (ns : String) (T : ConfigMapSpec) (w : World) :
    FailFast env w (reconcileConfigMap env ns T w).1 (reconcileConfigMap env ns T w).2 := by
  cases hf : env.fault w.trace.length with
  | some code =>
    rw [reconcileConfigMap_fault env ns T w code hf]
    refine FailFast.single_err env w _ _ ?_ (failed_fault _ _)
    intro code' hc
    rw [hf] at hc
    rw [Option.some.inj hc]
  | none =>
    cases hfind : w.store.findConfigMap ns T.Name with
    | none =>
      rw [reconcileConfigMap_absent env ns T w hf hfind]
      have h1 := FailFast.single_notFound env w (.getConfigMap ns T.Name) hf rfl
      cases hc : env.fault (w.trace.length + 1) with
      | some code =>
        simp only []
        refine FailFast.trans env w _ _ _ h1 ?_
        have := FailFast.single_err env
          ⟨w.store, w.trace ++ [(.getConfigMap ns T.Name, some .notFound)]⟩
          (.createConfigMap (createdConfigMap ns T)) (.fault code)
          (by
            intro code' hc'
            simp only [List.length_append, List.length_singleton] at hc'
            rw [hc] at hc'
            rw [Option.some.inj hc'])
          (failed_fault _ _)
        simpa using this
      | none =>
        simp only []
        refine FailFast.trans env w _ _ _ h1 ?_
        have h2 := FailFast.single_ok env
          ⟨w.store, w.trace ++ [(.getConfigMap ns T.Name, some .notFound)]⟩
          (.createConfigMap (createdConfigMap ns T))
          (w.store.withCreated (createdConfigMap ns T)) (by simpa using hc) rfl
        refine FailFast.trans env _ _ _ _ h2 ?_
        have := restartDeployments_failFast env ns T.Name
          ⟨w.store.withCreated (createdConfigMap ns T),
            w.trace ++ [(.getConfigMap ns T.Name, some .notFound)] ++
              [(.createConfigMap (createdConfigMap ns T), none)]⟩
        simpa using this
    | some cm =>
      rw [reconcileConfigMap_found env ns T w cm hf hfind]
      have h1 := FailFast.single_ok env w (.getConfigMap ns T.Name) w.store hf rfl
      by_cases hch : (mergeUpdates (cm.Data.getD []) T.Updates).2 = true
      · rw [if_pos hch]
        cases hc : env.fault (w.trace.length + 1) with
        | some code =>
          simp only []
          refine FailFast.trans env w _ _ _ h1 ?_
          have := FailFast.single_err env
            ⟨w.store, w.trace ++ [(.getConfigMap ns T.Name, none)]⟩
            (.updateConfigMap (mergedConfigMap cm T)) (.fault code)
            (by
              intro code' hc'
              simp only [List.length_append, List.length_singleton] at hc'
              rw [hc] at hc'
              rw [Option.some.inj hc'])
            (failed_fault _ _)
          simpa using this
        | none =>
          simp only []
          refine FailFast.trans env w _ _ _ h1 ?_
          have h2 := FailFast.single_ok env
            ⟨w.store, w.trace ++ [(.getConfigMap ns T.Name, none)]⟩
            (.updateConfigMap (mergedConfigMap cm T))
            (w.store.withUpdated (mergedConfigMap cm T)) (by simpa using hc) rfl
          refine FailFast.trans env _ _ _ _ h2 ?_
          have := restartDeployments_failFast env ns T.Name
            ⟨w.store.withUpdated (mergedConfigMap cm T),
              w.trace ++ [(.getConfigMap ns T.Name, none)] ++
                [(.updateConfigMap (mergedConfigMap cm T), none)]⟩
          simpa using this
      · rw [if_neg hch]
        exact h1

theorem reconcileConfigMaps_failFast (env : Env) (ns : String) (targets : List ConfigMapSpec)
    (w : World) :
    FailFast env w (reconcileConfigMaps env ns targets w).1
      (reconcileConfigMaps env ns targets w).2 := by
  induction targets generalizing w with
  | nil => exact ⟨[], by simp [reconcileConfigMaps], rfl, by simp, by simp [reconcileConfigMaps]⟩
  | cons T rest ih =>
    have hstep := reconcileConfigMap_failFast env ns T w
    rcases reconcileConfigMaps_cons env ns T rest w with ⟨err, herr, hrun⟩ | ⟨hok, hrun⟩
    · rw [hrun]
      rw [herr] at hstep
      exact hstep
    · rw [hrun]
      rw [hok] at hstep
      exact FailFast.trans env w _ _ _ hstep (ih _)

theorem Reconcile_failFast (env : Env) (req : Request) (w : World) :
    FailFast env w (Reconcile env req w).1 (Reconcile env req w).2 := by
  rcases Reconcile_cases env req w with ⟨code, hf, hrun⟩ | ⟨hf, -, hrun⟩ | ⟨m, hf, -, hrun⟩
  · rw [hrun]
    refine FailFast.single_err env w _ _ ?_ (failed_fault _ _)
    intro code' hc
    rw [hf] at hc
    rw [Option.some.inj hc]
  · rw [hrun]
    exact FailFast.single_notFound env w _ hf rfl
  · rw [hrun]
    exact FailFast.trans env w _ _ _
      (FailFast.single_ok env w (.getManager req.Namespace req.Name) w.store hf rfl)
      (reconcileConfigMaps_failFast env req.Namespace m.Spec.ConfigMaps _)

theorem eq_last_of_failed (pre post pre' : List (Call × Option StoreError))
    (e l : Call × Option StoreError) (h : pre ++ e :: post = pre' ++ [l])
    (hfail : failed e = true) (hpre : ∀ x ∈ pre', failed x = false) : post = [] ∧ e = l := by
  rcases List.eq_nil_or_concat post with rfl | ⟨post', l', rfl⟩
  · have := List.append_inj' h rfl
    exact ⟨rfl, by simpa using this.2⟩
  · have h' : (pre ++ e :: post') ++ [l'] = pre' ++ [l] := by simpa using h
    have := List.append_inj' h' rfl
    have hmem : e ∈ pre' := by rw [← this.1]; simp
    rw [hpre e hmem] at hfail
    exact absurd hfail Bool.false_ne_true

/-- C7: fail-fast. In every run of `Reconcile` the calls issued extend the
trace and the resulting store is the store with the writes of the calls that
succeeded committed in order (no rollback); a call on which a failure is
injected is the last call of the run and `Reconcile` returns its error; any
failed call of the run (an error other than not-found on a read, or any error
on a create, an update or a list) is the last call of the run, so that no
later target or Deployment is read or written, and its error is what
`Reconcile` returns; and an error returned by `Reconcile` is the error of the
last call of the run. -/
theorem fail_fast (env : Env) (req : Request) (w : World) :
    ∃ new, (Reconcile env req w).2.trace = w.trace ++ new ∧
      (Reconcile env req w).2.store = w.store.replay new ∧
      (∀ i code, i < new.length → env.fault (w.trace.length + i) = some code →
        i + 1 = new.length ∧ (Reconcile env req w).1 = some (.fault code)) ∧
      (∀ pre e post, new = pre ++ e :: post → failed e = true →
        post = [] ∧ (Reconcile env req w).1 = e.2) ∧
      (∀ err, (Reconcile env req w).1 = some err →
        ∃ pre c, new = pre ++ [(c, some err)] ∧ failed (c, some err) = true) := by
  obtain ⟨new, htrace, hstore, horacle, hmatch⟩ := Reconcile_failFast env req w
  refine ⟨new, htrace, hstore, horacle, ?_, ?_⟩
  · intro pre e post hnew hfail
    cases hr : (Reconcile env req w).1 with
    | none =>
      rw [hr] at hmatch
      have := hmatch e (by rw [hnew]; simp)
      rw [this] at hfail
      exact absurd hfail Bool.false_ne_true
    | some err =>
      rw [hr] at hmatch
      obtain ⟨pre', c, hnew', -, hpre⟩ := hmatch
      rw [hnew] at hnew'
      obtain ⟨hpost, he⟩ := eq_last_of_failed pre post pre' e _ hnew' hfail hpre
      exact ⟨hpost, by rw [he]⟩
  · intro err hr
    rw [hr] at hmatch
    obtain ⟨pre, c, hnew, hfail, -⟩ := hmatch
    exact ⟨pre, c, hnew, hfail⟩

/-- C7 at an instance: two targets whose ConfigMaps are absent, and a
failure of the third call, the create of the first target. `Reconcile`
returns that failure, nothing is stored and the second target is not read. -/
theorem fail_fast_witness :
    (Reconcile faultyEnv testRequest
        (testWorld [⟨"first", [⟨"a", "1"⟩]⟩, ⟨"second", [⟨"b", "2"⟩]⟩] [] [])).2
      = ⟨(testWorld [⟨"first", [⟨"a", "1"⟩]⟩, ⟨"second", [⟨"b", "2"⟩]⟩] [] []).store,
          [(.getManager "default" "test-configmapmanager", none),
           (.getConfigMap "default" "first", some .notFound),
           (.createConfigMap ⟨"first", "default", some [("a", "1")]⟩, some (.fault 7))]⟩ ∧
    (Reconcile faultyEnv testRequest
        (testWorld [⟨"first", [⟨"a", "1"⟩]⟩, ⟨"second", [⟨"b", "2"⟩]⟩] [] [])).1
      = some (.fault 7) := by
  have hrun : (Reconcile faultyEnv testRequest
        (testWorld [⟨"first", [⟨"a", "1"⟩]⟩, ⟨"second", [⟨"b", "2"⟩]⟩] [] [])).2
      = ⟨(testWorld [⟨"first", [⟨"a", "1"⟩]⟩, ⟨"second", [⟨"b", "2"⟩]⟩] [] []).store,
          [(.getManager "default" "test-configmapmanager", none),
           (.getConfigMap "default" "first", some .notFound),
           (.createConfigMap ⟨"first", "default", some [("a", "1")]⟩, some (.fault 7))]⟩ := by
    decide
  obtain ⟨new, htrace, -, horacle, -⟩ := fail_fast faultyEnv testRequest
    (testWorld [⟨"first", [⟨"a", "1"⟩]⟩, ⟨"second", [⟨"b", "2"⟩]⟩] [] [])
  have hlen : new.length = 3 := by
    have := congrArg List.length htrace
    rw [hrun] at this
    simpa [testWorld] using this.symm
  exact ⟨hrun, (horacle 2 7 (by omega) rfl).2⟩

end CMOperator

